import Mathlib

/-!
Verification of the OpenAPI reference-resolution core of the repository
(`src/lib/openapi-resolver.ts`): the reference index builder `collectRefs`,
the recursive dereferencer `dereferenceSchema`, the document-wide
dereferencer `dereferenceSpec`, the bulk resolver `dereferenceAllSchemas`
and the presentation projection `simplifySchema`.

The JavaScript values the resolver manipulates (parsed YAML/JSON trees,
plus `undefined`) are modelled by the mutually inductive type `JVal`:
arrays and objects carry their children through the companion types
`JArr` and `JObj`, so that all tree recursions are structural and
kernel-computable.  JavaScript objects cannot carry a duplicate key, and
`JObj` lookups take the first match, matching that semantics on every
representable input.  Fallible operations (JavaScript `TypeError`s such
as reading a property of `undefined`) are modelled with `Except Unit`.

The recursive dereferencer mutates one structure at run time: the
`visited` `Set` of reference paths (`visited.add` before recursing into a
resolved target, `visited.delete` afterwards).  Two embeddings are given:
`derefCore` (the path-scoped functional account, by well-founded
recursion, also returning the Boolean "a circular reference was detected"
flag that mirrors the `console.log` diagnostic), and `derefFuel` (the
operational account: explicit call-stack budget and the mutable `Set`
threaded through sibling iterations exactly as the shared JavaScript
`Set` object is).  Their agreement, including restoration of `visited`,
is proved below.
-/

mutual
/-- A JavaScript value as seen by the resolver: `undefined`, `null`,
booleans, (integral) numbers, strings, arrays and plain objects. -/
inductive JVal where
  | undef
  | null
  | bool (b : Bool)
  | num (n : Int)
  | str (s : String)
  | arr (xs : JArr)
  | obj (kvs : JObj)

/-- The element list of a JavaScript array. -/
inductive JArr where
  | nil
  | cons (hd : JVal) (tl : JArr)

/-- The ordered key/value entries of a JavaScript object. -/
inductive JObj where
  | nil
  | cons (key : String) (val : JVal) (tl : JObj)
end

/-- First-match key lookup in an object, the behaviour of `o[key]` for
JavaScript objects (which cannot hold a key twice). -/
def lookupKey : JObj → String → Option JVal
  | .nil, _ => none
  | .cons k v rest, key => if k == key then some v else lookupKey rest key

/-- A reference map (`RefMap = Map<string, any>`), keyed by reference
string; `lookupRef` is `Map.prototype.get`. -/
def lookupRef : List (String × JVal) → String → Option JVal
  | [], _ => none
  | (k, v) :: rest, key => if k == key then some v else lookupRef rest key

/-- `resolveRef` from the source: look a single reference string up in the
map, `undefined` (here `none`) when absent. -/
def resolveRef (ref : String) (refMap : List (String × JVal)) : Option JVal :=
  lookupRef refMap ref

/-- JavaScript truthiness of a modelled value (`undefined`, `null`,
`false`, `0` and `""` are falsy; arrays and objects are always truthy). -/
def truthy : JVal → Bool
  | .undef => false
  | .null => false
  | .bool b => b
  | .num n => n != 0
  | .str s => s != ""
  | .arr _ => true
  | .obj _ => true

/-- `typeof v === "object"` (true for `null`, arrays and objects). -/
def typeofObject : JVal → Bool
  | .null => true
  | .arr _ => true
  | .obj _ => true
  | _ => false

/-- The string held by an optional value, if any: `asStr (lookupKey kvs
"$ref") = some p` is exactly the source guard `typeof schema.$ref ===
"string"` together with the bound path `p`. -/
def asStr : Option JVal → Option String
  | some (.str s) => some s
  | _ => none

/-- `Set.prototype.add`: append the element when it is not yet present. -/
def insertSet (x : String) (s : List String) : List String :=
  if s.contains x then s else s ++ [x]

/-- Property access `v[key]` as a total function: field of an object,
`undefined` otherwise.  (The keys this code base reads — `components`,
`schemas`, `paths`, `$ref`, `type`, `properties`, `items`, `enum`,
`format` — are never built-in properties of arrays or strings, so
returning `undefined` off objects is exact.)  Reading a property of
`null`/`undefined` throws in JavaScript; `getProp` models that. -/
def jsProp (v : JVal) (key : String) : JVal :=
  match v with
  | .obj kvs => (lookupKey kvs key).getD .undef
  | _ => (.undef)

/-- Fallible property access: a `TypeError` on `null`/`undefined`,
otherwise the `jsProp` value. -/
def getProp (v : JVal) (key : String) : Except Unit JVal :=
  match v with
  | .undef => .error ()
  | .null => .error ()
  | _ => .ok (jsProp v key)

/-- The number of reference-map keys not yet in the visited set: the
primary component of the dereferencer's termination measure. -/
def keysLeft (refMap : List (String × JVal)) (visited : List String) : Nat :=
  ((refMap.map Prod.fst).filter (fun k => decide (k ∉ visited))).length

theorem contains_eq (l : List String) (a : String) : l.contains a = decide (a ∈ l) :=
  List.elem_eq_mem a l

theorem contains_false_not_mem {l : List String} {a : String}
    (h : l.contains a = false) : a ∉ l := by
  intro hm
  rw [contains_eq] at h
  simp [hm] at h

theorem length_filter_le_of_imp {l : List String} {p q : String → Bool}
    (h : ∀ a, p a = true → q a = true) : (l.filter p).length ≤ (l.filter q).length := by
  induction l with
  | nil => simp
  | cons a t ih =>
    by_cases hp : p a = true
    · simp only [List.filter, hp, h a hp, List.length_cons]
      omega
    · have hp2 : p a = false := by simpa using hp
      cases hq : q a <;> simp only [List.filter, hp2, hq, List.length_cons] <;> omega

theorem mem_keys_of_lookupRef {r : List (String × JVal)} {ref : String} {t : JVal}
    (h : lookupRef r ref = some t) : ref ∈ r.map Prod.fst := by
  induction r with
  | nil => simp [lookupRef] at h
  | cons kv rest ih =>
    simp only [lookupRef] at h
    by_cases hk : kv.1 == ref
    · exact List.mem_cons.mpr (Or.inl (beq_iff_eq.mp hk).symm)
    · rw [if_neg hk] at h
      exact List.mem_cons.mpr (Or.inr (ih h))

theorem keysLeft_insert_lt {refMap : List (String × JVal)} {visited : List String}
    {ref : String} {t : JVal}
    (hl : lookupRef refMap ref = some t) (hnv : visited.contains ref = false) :
    keysLeft refMap (insertSet ref visited) < keysLeft refMap visited := by
  have hmem := mem_keys_of_lookupRef hl
  have hrefnv : ref ∉ visited := contains_false_not_mem hnv
  unfold keysLeft insertSet
  rw [if_neg (by rw [hnv]; exact Bool.false_ne_true)]
  have hle : ∀ l : List String,
      (l.filter (fun k => decide (k ∉ visited ++ [ref]))).length ≤
      (l.filter (fun k => decide (k ∉ visited))).length := by
    intro l
    apply length_filter_le_of_imp
    intro a ha
    simp only [decide_eq_true_eq, List.mem_append] at ha ⊢
    intro hm
    exact ha (Or.inl hm)
  induction refMap with
  | nil => simp at hmem
  | cons kv rest ih =>
    simp only [List.map_cons] at hmem ⊢
    by_cases h0 : kv.1 = ref
    · subst h0
      have e1 : decide (kv.1 ∉ visited ++ [kv.1]) = false := by simp
      have e2 : decide (kv.1 ∉ visited) = true := by simpa using hrefnv
      have := hle (rest.map Prod.fst)
      simp only [List.filter, e1, e2, List.length_cons]
      omega
    · have h : ref ∈ List.map Prod.fst rest := by
        rcases List.mem_cons.mp hmem with hh | hh
        · exact absurd hh.symm h0
        · exact hh
      have hl2 : lookupRef rest ref = some t := by
        simpa [lookupRef, show (kv.1 == ref) = false by simpa using h0] using hl
      have := ih hl2 h
      by_cases hv1 : kv.1 ∈ visited
      · have e1 : decide (kv.1 ∉ visited ++ [ref]) = false := by
          simp [List.mem_append, hv1]
        have e2 : decide (kv.1 ∉ visited) = false := by simpa using hv1
        simpa only [List.filter, e1, e2] using this
      · have hv2 : kv.1 ∉ visited ++ [ref] := by
          intro hmm
          rcases List.mem_append.mp hmm with hh | hh
          · exact hv1 hh
          · exact h0 (by simpa using hh)
        have e1 : decide (kv.1 ∉ visited ++ [ref]) = true := by simpa using hv2
        have e2 : decide (kv.1 ∉ visited) = true := by simpa using hv1
        simp only [List.filter, e1, e2, List.length_cons]
        omega

mutual
/-- The recursive dereferencer `dereferenceSchema(schema, refMap, visited)`
in its path-scoped functional reading: the second component records
whether the circular-reference branch (the `console.log` diagnostic plus
the `(ref, _circular: true)` placeholder) was taken anywhere in the call.
The balanced `visited.add` / `visited.delete` pair of the source is
rendered by passing `insertSet ref visited` to the recursive call on the
resolved target; agreement with the literal mutable-`Set` execution is
proved as `derefFuel_sound` below. -/
def derefCore (schema : JVal) (refMap : List (String × JVal)) (visited : List String) :
    JVal × Bool :=
  match schema with
  | .undef | .null | .bool _ | .num _ | .str _ => (schema, false)
  | .arr xs =>
      let r := derefCoreArr xs refMap visited
      (.arr r.1, r.2)
  | .obj kvs =>
      match asStr (lookupKey kvs "$ref") with
      | some ref =>
          if hv : visited.contains ref then
            (.obj (.cons "$ref" (.str ref) (.cons "_circular" (.bool true) .nil)), true)
          else
            match hl : lookupRef refMap ref with
            | some target =>
                if truthy target then derefCore target refMap (insertSet ref visited)
                else (.obj kvs, false)
            | none => (.obj kvs, false)
      | none =>
          let r := derefCoreObj kvs refMap visited
          (.obj r.1, r.2)
termination_by (keysLeft refMap visited, sizeOf schema)
decreasing_by
  · apply Prod.Lex.right; simp only [JVal.arr.sizeOf_spec]; omega
  · apply Prod.Lex.left
    exact keysLeft_insert_lt hl (by simpa using hv)
  · apply Prod.Lex.right; simp only [JVal.obj.sizeOf_spec]; omega

/-- Element-wise dereferencing of an array (`schema.map(item => ...)`). -/
def derefCoreArr (xs : JArr) (refMap : List (String × JVal)) (visited : List String) :
    JArr × Bool :=
  match xs with
  | .nil => (.nil, false)
  | .cons x rest =>
      let r1 := derefCore x refMap visited
      let r2 := derefCoreArr rest refMap visited
      (.cons r1.1 r2.1, r1.2 || r2.2)
termination_by (keysLeft refMap visited, sizeOf xs)
decreasing_by
  · apply Prod.Lex.right; simp only [JArr.cons.sizeOf_spec]; omega
  · apply Prod.Lex.right; simp only [JArr.cons.sizeOf_spec]; omega

/-- Entry-wise dereferencing of a plain object
(`result[key] = dereferenceSchema(value, refMap, visited)`). -/
def derefCoreObj (kvs : JObj) (refMap : List (String × JVal)) (visited : List String) :
    JObj × Bool :=
  match kvs with
  | .nil => (.nil, false)
  | .cons k v rest =>
      let r1 := derefCore v refMap visited
      let r2 := derefCoreObj rest refMap visited
      (.cons k r1.1 r2.1, r1.2 || r2.2)
termination_by (keysLeft refMap visited, sizeOf kvs)
decreasing_by
  · apply Prod.Lex.right; simp only [JObj.cons.sizeOf_spec]; omega
  · apply Prod.Lex.right; simp only [JObj.cons.sizeOf_spec]; omega
end

/-- `dereferenceSchema(schema, refMap, visited)`: the value computed by the
recursive dereferencer (the default for `visited` in the source is the
empty set; callers below pass `[]` explicitly). -/
def dereferenceSchema (schema : JVal) (refMap : List (String × JVal))
    (visited : List String) : JVal :=
  (derefCore schema refMap visited).1

/-- Whether dereferencing hits the circular-reference branch somewhere:
`true` exactly when the run would emit the `console.log` cycle
diagnostic; a document is acyclic precisely when this is `false`. -/
def derefHits (schema : JVal) (refMap : List (String × JVal))
    (visited : List String) : Bool :=
  (derefCore schema refMap visited).2

theorem derefCore_undef (r : List (String × JVal)) (v : List String) :
    derefCore .undef r v = (.undef, false) := by simp [derefCore]

theorem derefCore_null (r : List (String × JVal)) (v : List String) :
    derefCore .null r v = (.null, false) := by simp [derefCore]

theorem derefCore_bool (b : Bool) (r : List (String × JVal)) (v : List String) :
    derefCore (.bool b) r v = (.bool b, false) := by simp [derefCore]

theorem derefCore_num (n : Int) (r : List (String × JVal)) (v : List String) :
    derefCore (.num n) r v = (.num n, false) := by simp [derefCore]

theorem derefCore_str (s : String) (r : List (String × JVal)) (v : List String) :
    derefCore (.str s) r v = (.str s, false) := by simp [derefCore]

theorem derefCore_arr (xs : JArr) (r : List (String × JVal)) (v : List String) :
    derefCore (.arr xs) r v = (.arr (derefCoreArr xs r v).1, (derefCoreArr xs r v).2) := by
  simp [derefCore]

theorem derefCoreArr_nil (r : List (String × JVal)) (v : List String) :
    derefCoreArr .nil r v = (.nil, false) := by simp [derefCoreArr]

theorem derefCoreArr_cons (x : JVal) (rest : JArr) (r : List (String × JVal)) (v : List String) :
    derefCoreArr (.cons x rest) r v =
      (.cons (derefCore x r v).1 (derefCoreArr rest r v).1,
        (derefCore x r v).2 || (derefCoreArr rest r v).2) := by
  simp [derefCoreArr]

theorem derefCoreObj_nil (r : List (String × JVal)) (v : List String) :
    derefCoreObj .nil r v = (.nil, false) := by simp [derefCoreObj]

theorem derefCoreObj_cons (k : String) (x : JVal) (rest : JObj) (r : List (String × JVal))
    (v : List String) :
    derefCoreObj (.cons k x rest) r v =
      (.cons k (derefCore x r v).1 (derefCoreObj rest r v).1,
        (derefCore x r v).2 || (derefCoreObj rest r v).2) := by
  simp [derefCoreObj]

theorem derefCore_obj_visited {kvs : JObj} {p : String} (r : List (String × JVal))
    {v : List String} (hk : asStr (lookupKey kvs "$ref") = some p)
    (hc : v.contains p = true) :
    derefCore (.obj kvs) r v =
      (.obj (.cons "$ref" (.str p) (.cons "_circular" (.bool true) .nil)), true) := by
  have hm : p ∈ v := by simpa [contains_eq] using hc
  simp [derefCore, hk, hm]

theorem derefCore_obj_dangling {kvs : JObj} {p : String} {r : List (String × JVal)}
    {v : List String} (hk : asStr (lookupKey kvs "$ref") = some p)
    (hc : v.contains p = false) (hl : lookupRef r p = none) :
    derefCore (.obj kvs) r v = (.obj kvs, false) := by
  have hm : p ∉ v := contains_false_not_mem hc
  simp [derefCore, hk, hm]
  split
  · rename_i target heq
    rw [hl] at heq
    cases heq
  · rfl

theorem derefCore_obj_falsy {kvs : JObj} {p : String} {r : List (String × JVal)}
    {v : List String} {w : JVal} (hk : asStr (lookupKey kvs "$ref") = some p)
    (hc : v.contains p = false) (hl : lookupRef r p = some w) (hw : truthy w = false) :
    derefCore (.obj kvs) r v = (.obj kvs, false) := by
  have hm : p ∉ v := contains_false_not_mem hc
  simp [derefCore, hk, hm]
  split
  · rename_i target heq
    rw [hl] at heq
    cases heq
    simp [hw]
  · rfl

theorem derefCore_obj_expand {kvs : JObj} {p : String} {r : List (String × JVal)}
    {v : List String} {w : JVal} (hk : asStr (lookupKey kvs "$ref") = some p)
    (hc : v.contains p = false) (hl : lookupRef r p = some w) (hw : truthy w = true) :
    derefCore (.obj kvs) r v = derefCore w r (insertSet p v) := by
  have hm : p ∉ v := contains_false_not_mem hc
  simp [derefCore, hk, hm]
  split
  · rename_i target heq
    rw [hl] at heq
    cases heq
    simp [hw]
  · rename_i heq
    rw [hl] at heq
    cases heq

theorem derefCore_obj_plain {kvs : JObj} (r : List (String × JVal)) (v : List String)
    (hk : asStr (lookupKey kvs "$ref") = none) :
    derefCore (.obj kvs) r v =
      (.obj (derefCoreObj kvs r v).1, (derefCoreObj kvs r v).2) := by
  simp [derefCore, hk]

theorem erase_append_not_mem : ∀ {l : List String} {a : String},
    a ∉ l → (l ++ [a]).erase a = l := by
  intro l a h
  induction l with
  | nil => simp
  | cons b t ih =>
    have hba : (b == a) = false := by
      have hne : a ≠ b := fun e => h (by simp [e])
      simpa using fun e => hne e.symm
    simp only [List.cons_append, List.erase_cons, hba]
    rw [ih (fun hm => h (List.mem_cons.mpr (Or.inr hm)))]
    simp

theorem insertSet_erase {ref : String} {v : List String} (h : v.contains ref = false) :
    (insertSet ref v).erase ref = v := by
  unfold insertSet
  rw [if_neg (by rw [h]; exact Bool.false_ne_true)]
  exact erase_append_not_mem (contains_false_not_mem h)

mutual
/-- The dereferencer as it executes: `fuel` bounds the depth of the call
stack, and the `visited` `Set` — the one object the source mutates — is
threaded through sibling iterations exactly as the shared JavaScript
`Set` is: `add` (as `insertSet`) before recursing into a resolved target,
`delete` (as `List.erase`) on the state coming back.  Returns the result
value, the final state of the `Set`, and the cycle-diagnostic flag;
`none` is fuel exhaustion, which `derefFuel_complete` rules out for
sufficient fuel. -/
def derefFuel : Nat → JVal → List (String × JVal) → List String →
    Option (JVal × List String × Bool)
  | 0, _, _, _ => none
  | Nat.succ n, schema, refMap, visited =>
    match schema with
    | .undef | .null | .bool _ | .num _ | .str _ => some (schema, visited, false)
    | .arr xs =>
      match derefFuelArr n xs refMap visited with
      | none => none
      | some (ys, vis2, b) => some (.arr ys, vis2, b)
    | .obj kvs =>
      match asStr (lookupKey kvs "$ref") with
      | some ref =>
        if visited.contains ref then
          some (.obj (.cons "$ref" (.str ref) (.cons "_circular" (.bool true) .nil)),
            visited, true)
        else
          match lookupRef refMap ref with
          | some target =>
            if truthy target then
              match derefFuel n target refMap (insertSet ref visited) with
              | none => none
              | some (y, vis2, b) => some (y, vis2.erase ref, b)
            else some (.obj kvs, visited, false)
          | none => some (.obj kvs, visited, false)
      | none =>
        match derefFuelObj n kvs refMap visited with
        | none => none
        | some (ys, vis2, b) => some (.obj ys, vis2, b)

/-- Array walk of the executable dereferencer, threading the `Set` state
from one element to the next. -/
def derefFuelArr : Nat → JArr → List (String × JVal) → List String →
    Option (JArr × List String × Bool)
  | 0, _, _, _ => none
  | Nat.succ n, xs, refMap, visited =>
    match xs with
    | .nil => some (.nil, visited, false)
    | .cons x rest =>
      match derefFuel n x refMap visited with
      | none => none
      | some (y, vis2, b) =>
        match derefFuelArr n rest refMap vis2 with
        | none => none
        | some (ys, vis3, b2) => some (.cons y ys, vis3, b || b2)

/-- Object-entry walk of the executable dereferencer, threading the `Set`
state from one entry to the next. -/
def derefFuelObj : Nat → JObj → List (String × JVal) → List String →
    Option (JObj × List String × Bool)
  | 0, _, _, _ => none
  | Nat.succ n, kvs, refMap, visited =>
    match kvs with
    | .nil => some (.nil, visited, false)
    | .cons k v rest =>
      match derefFuel n v refMap visited with
      | none => none
      | some (y, vis2, b) =>
        match derefFuelObj n rest refMap vis2 with
        | none => none
        | some (ys, vis3, b2) => some (.cons k y ys, vis3, b || b2)
end

mutual
/-- Soundness of the operational account: whenever the fuel-bounded,
`Set`-threading execution returns, its value is the path-scoped
functional value, the final `Set` state is exactly the initial one (the
balanced add/delete discipline leaks nothing into siblings), and its
diagnostic flag agrees. -/
theorem derefFuel_sound : ∀ (n : Nat) (s : JVal) (r : List (String × JVal))
    (v : List String) (out : JVal × List String × Bool),
    derefFuel n s r v = some out →
    out = ((derefCore s r v).1, v, (derefCore s r v).2)
  | 0, s, r, v, out, h => by simp [derefFuel] at h
  | n + 1, .undef, r, v, out, h => by
      simp only [derefFuel, Option.some.injEq] at h
      subst h
      simp [derefCore_undef]
  | n + 1, .null, r, v, out, h => by
      simp only [derefFuel, Option.some.injEq] at h
      subst h
      simp [derefCore_null]
  | n + 1, .bool b, r, v, out, h => by
      simp only [derefFuel, Option.some.injEq] at h
      subst h
      simp [derefCore_bool]
  | n + 1, .num m, r, v, out, h => by
      simp only [derefFuel, Option.some.injEq] at h
      subst h
      simp [derefCore_num]
  | n + 1, .str st, r, v, out, h => by
      simp only [derefFuel, Option.some.injEq] at h
      subst h
      simp [derefCore_str]
  | n + 1, .arr xs, r, v, out, h => by
      simp only [derefFuel] at h
      rcases hA : derefFuelArr n xs r v with _ | ⟨ys, vis2, b⟩
      · simp [hA] at h
      · simp only [hA] at h
        simp only [Option.some.injEq] at h
        subst h
        have hAs := derefFuelArr_sound n xs r v _ hA
        simp only [Prod.mk.injEq] at hAs
        obtain ⟨e1, e2, e3⟩ := hAs
        simp [derefCore_arr, e1, e2, e3]
  | n + 1, .obj kvs, r, v, out, h => by
      rcases hko : asStr (lookupKey kvs "$ref") with _ | p
      · simp only [derefFuel, hko] at h
        rcases hO : derefFuelObj n kvs r v with _ | ⟨ys, vis2, b⟩
        · simp [hO] at h
        · simp only [hO] at h
          simp only [Option.some.injEq] at h
          subst h
          have hOs := derefFuelObj_sound n kvs r v _ hO
          simp only [Prod.mk.injEq] at hOs
          obtain ⟨e1, e2, e3⟩ := hOs
          rw [derefCore_obj_plain r v hko]
          simp [e1, e2, e3]
      · simp only [derefFuel, hko] at h
        by_cases hc : v.contains p = true
        · rw [if_pos hc] at h
          simp only [Option.some.injEq] at h
          subst h
          rw [derefCore_obj_visited r hko hc]
        · have hc2 : v.contains p = false := by simpa using hc
          rw [if_neg hc] at h
          rcases hl : lookupRef r p with _ | w2
          · simp only [hl, Option.some.injEq] at h
            subst h
            rw [derefCore_obj_dangling hko hc2 hl]
          · simp only [hl] at h
            by_cases ht : truthy w2 = true
            · rw [if_pos ht] at h
              rcases hT : derefFuel n w2 r (insertSet p v) with _ | ⟨y, vis2, b⟩
              · simp [hT] at h
              · simp only [hT] at h
                simp only [Option.some.injEq] at h
                subst h
                have hTs := derefFuel_sound n w2 r (insertSet p v) _ hT
                simp only [Prod.mk.injEq] at hTs
                obtain ⟨e1, e2, e3⟩ := hTs
                rw [derefCore_obj_expand hko hc2 hl ht]
                rw [e1, e3, e2, insertSet_erase hc2]
            · have ht2 : truthy w2 = false := by simpa using ht
              rw [if_neg ht] at h
              simp only [Option.some.injEq] at h
              subst h
              rw [derefCore_obj_falsy hko hc2 hl ht2]

/-- Soundness of the array walk, including `Set`-state restoration. -/
theorem derefFuelArr_sound : ∀ (n : Nat) (xs : JArr) (r : List (String × JVal))
    (v : List String) (out : JArr × List String × Bool),
    derefFuelArr n xs r v = some out →
    out = ((derefCoreArr xs r v).1, v, (derefCoreArr xs r v).2)
  | 0, xs, r, v, out, h => by simp [derefFuelArr] at h
  | n + 1, .nil, r, v, out, h => by
      simp only [derefFuelArr, Option.some.injEq] at h
      subst h
      simp [derefCoreArr_nil]
  | n + 1, .cons x rest, r, v, out, h => by
      simp only [derefFuelArr] at h
      rcases hx : derefFuel n x r v with _ | ⟨y, vis2, b⟩
      · simp [hx] at h
      · simp only [hx] at h
        have hxs := derefFuel_sound n x r v _ hx
        simp only [Prod.mk.injEq] at hxs
        obtain ⟨e1, e2, e3⟩ := hxs
        subst e2
        rcases hR : derefFuelArr n rest r vis2 with _ | ⟨ys, vis3, b2⟩
        · simp [hR] at h
        · simp only [hR] at h
          simp only [Option.some.injEq] at h
          subst h
          have hRs := derefFuelArr_sound n rest r vis2 _ hR
          simp only [Prod.mk.injEq] at hRs
          obtain ⟨f1, f2, f3⟩ := hRs
          simp [derefCoreArr_cons, e1, e3, f1, f2, f3]

/-- Soundness of the object-entry walk, including `Set`-state restoration. -/
theorem derefFuelObj_sound : ∀ (n : Nat) (kvs : JObj) (r : List (String × JVal))
    (v : List String) (out : JObj × List String × Bool),
    derefFuelObj n kvs r v = some out →
    out = ((derefCoreObj kvs r v).1, v, (derefCoreObj kvs r v).2)
  | 0, kvs, r, v, out, h => by simp [derefFuelObj] at h
  | n + 1, .nil, r, v, out, h => by
      simp only [derefFuelObj, Option.some.injEq] at h
      subst h
      simp [derefCoreObj_nil]
  | n + 1, .cons k x rest, r, v, out, h => by
      simp only [derefFuelObj] at h
      rcases hx : derefFuel n x r v with _ | ⟨y, vis2, b⟩
      · simp [hx] at h
      · simp only [hx] at h
        have hxs := derefFuel_sound n x r v _ hx
        simp only [Prod.mk.injEq] at hxs
        obtain ⟨e1, e2, e3⟩ := hxs
        subst e2
        rcases hR : derefFuelObj n rest r vis2 with _ | ⟨ys, vis3, b2⟩
        · simp [hR] at h
        · simp only [hR] at h
          simp only [Option.some.injEq] at h
          subst h
          have hRs := derefFuelObj_sound n rest r vis2 _ hR
          simp only [Prod.mk.injEq] at hRs
          obtain ⟨f1, f2, f3⟩ := hRs
          simp [derefCoreObj_cons, e1, e3, f1, f2, f3]
end

mutual
/-- Executable size of a value (the well-founded `sizeOf` is not code-
generated for this mutual family, so the fuel bound uses this one). -/
def sizeJ : JVal → Nat
  | .undef => 1
  | .null => 1
  | .bool _ => 1
  | .num _ => 1
  | .str _ => 1
  | .arr xs => 1 + sizeA xs
  | .obj kvs => 1 + sizeO kvs

/-- Executable size of an array body. -/
def sizeA : JArr → Nat
  | .nil => 1
  | .cons x xs => 1 + sizeJ x + sizeA xs

/-- Executable size of an object body. -/
def sizeO : JObj → Nat
  | .nil => 1
  | .cons _ v t => 1 + sizeJ v + sizeO t
end

/-- The largest size of a value stored in the reference map (0 when the
map is empty); used to bound the call-stack depth of dereferencing. -/
def maxRefSize (r : List (String × JVal)) : Nat :=
  (r.map (fun kv => sizeJ kv.2)).foldr max 0

theorem sizeJ_le_maxRefSize {r : List (String × JVal)} {ref : String} {t : JVal}
    (h : lookupRef r ref = some t) : sizeJ t ≤ maxRefSize r := by
  induction r with
  | nil => simp [lookupRef] at h
  | cons kv rest ih =>
    simp only [lookupRef] at h
    by_cases hk : kv.1 == ref
    · rw [if_pos hk] at h
      simp only [Option.some.injEq] at h
      subst h
      simp only [maxRefSize, List.map_cons, List.foldr]
      exact Nat.le_max_left _ _
    · rw [if_neg hk] at h
      have := ih h
      simp only [maxRefSize, List.map_cons, List.foldr] at this ⊢
      exact le_trans this (Nat.le_max_right _ _)

theorem one_le_sizeJ (x : JVal) : 1 ≤ sizeJ x := by
  cases x <;> simp only [sizeJ] <;> omega

theorem one_le_sizeA (xs : JArr) : 1 ≤ sizeA xs := by
  cases xs <;> simp only [sizeA] <;> omega

theorem one_le_sizeO (kvs : JObj) : 1 ≤ sizeO kvs := by
  cases kvs <;> simp only [sizeO] <;> omega

mutual
/-- Completeness of the operational account: the execution returns some
result whenever the fuel is at least
`keysLeft refMap visited * (maxRefSize refMap + 1) + sizeJ schema`.
Together with `derefFuel_sound` this is the termination argument of the
source: every call chain bottoms out, even on cyclic reference graphs. -/
theorem derefFuel_complete : ∀ (n : Nat) (s : JVal) (r : List (String × JVal))
    (v : List String),
    keysLeft r v * (maxRefSize r + 1) + sizeJ s ≤ n →
    (derefFuel n s r v).isSome = true
  | 0, s, r, v, hb => by
      have := one_le_sizeJ s
      omega
  | n + 1, .undef, r, v, hb => by simp [derefFuel]
  | n + 1, .null, r, v, hb => by simp [derefFuel]
  | n + 1, .bool b, r, v, hb => by simp [derefFuel]
  | n + 1, .num m, r, v, hb => by simp [derefFuel]
  | n + 1, .str st, r, v, hb => by simp [derefFuel]
  | n + 1, .arr xs, r, v, hb => by
      have hsz : sizeJ (JVal.arr xs) = 1 + sizeA xs := rfl
      have hb2 : keysLeft r v * (maxRefSize r + 1) + sizeA xs ≤ n := by omega
      have hA2 := derefFuelArr_complete n xs r v hb2
      rcases hA : derefFuelArr n xs r v with _ | ⟨ys, vis2, b⟩
      · rw [hA] at hA2; simp at hA2
      · simp [derefFuel, hA]
  | n + 1, .obj kvs, r, v, hb => by
      have hsz : sizeJ (JVal.obj kvs) = 1 + sizeO kvs := rfl
      rcases hko : asStr (lookupKey kvs "$ref") with _ | p
      · have hb2 : keysLeft r v * (maxRefSize r + 1) + sizeO kvs ≤ n := by omega
        have hO2 := derefFuelObj_complete n kvs r v hb2
        rcases hO : derefFuelObj n kvs r v with _ | ⟨ys, vis2, b⟩
        · rw [hO] at hO2; simp at hO2
        · simp [derefFuel, hko, hO]
      · by_cases hc : v.contains p = true
        · have hm : p ∈ v := by simpa [contains_eq] using hc
          simp [derefFuel, hko, hm]
        · have hc2 : v.contains p = false := by simpa using hc
          rcases hl : lookupRef r p with _ | w
          · simp only [derefFuel, hko]
            rw [if_neg hc]
            simp [hl]
          · by_cases ht : truthy w = true
            · have hkey : keysLeft r (insertSet p v) < keysLeft r v :=
                keysLeft_insert_lt hl hc2
              have hwsz : sizeJ w ≤ maxRefSize r := sizeJ_le_maxRefSize hl
              have hmul : keysLeft r (insertSet p v) * (maxRefSize r + 1) ≤
                  (keysLeft r v - 1) * (maxRefSize r + 1) :=
                Nat.mul_le_mul_right _ (by omega)
              have hsub : (keysLeft r v - 1) * (maxRefSize r + 1) =
                  keysLeft r v * (maxRefSize r + 1) - 1 * (maxRefSize r + 1) :=
                Nat.sub_mul _ _ _
              have hb2 : keysLeft r (insertSet p v) * (maxRefSize r + 1) + sizeJ w ≤ n := by
                have hone : 1 ≤ keysLeft r v := by omega
                have hKM : 1 * (maxRefSize r + 1) ≤ keysLeft r v * (maxRefSize r + 1) :=
                  Nat.mul_le_mul_right _ hone
                omega
              have hT2 := derefFuel_complete n w r (insertSet p v) hb2
              rcases hT : derefFuel n w r (insertSet p v) with _ | ⟨y, vis2, b⟩
              · rw [hT] at hT2; simp at hT2
              · simp only [derefFuel, hko]
                rw [if_neg hc]
                simp [hl, ht, hT]
            · simp only [derefFuel, hko]
              rw [if_neg hc]
              have ht2 : truthy w = false := by simpa using ht
              simp [hl, ht2]

/-- Completeness of the array walk. -/
theorem derefFuelArr_complete : ∀ (n : Nat) (xs : JArr) (r : List (String × JVal))
    (v : List String),
    keysLeft r v * (maxRefSize r + 1) + sizeA xs ≤ n →
    (derefFuelArr n xs r v).isSome = true
  | 0, xs, r, v, hb => by
      have := one_le_sizeA xs
      omega
  | n + 1, .nil, r, v, hb => by simp [derefFuelArr]
  | n + 1, .cons x rest, r, v, hb => by
      have hsz : sizeA (JArr.cons x rest) = 1 + sizeJ x + sizeA rest := rfl
      have hr1 := one_le_sizeA rest
      have hx1 := one_le_sizeJ x
      have hbx : keysLeft r v * (maxRefSize r + 1) + sizeJ x ≤ n := by omega
      have hx2 := derefFuel_complete n x r v hbx
      rcases hx : derefFuel n x r v with _ | ⟨y, vis2, b⟩
      · rw [hx] at hx2; simp at hx2
      · have hxs := derefFuel_sound n x r v _ hx
        simp only [Prod.mk.injEq] at hxs
        obtain ⟨e1, e2, e3⟩ := hxs
        rw [e2] at hx
        have hbr : keysLeft r v * (maxRefSize r + 1) + sizeA rest ≤ n := by omega
        have hR2 := derefFuelArr_complete n rest r v hbr
        rcases hR : derefFuelArr n rest r v with _ | ⟨ys, vis3, b2⟩
        · rw [hR] at hR2; simp at hR2
        · simp [derefFuelArr, hx, hR]

/-- Completeness of the object-entry walk. -/
theorem derefFuelObj_complete : ∀ (n : Nat) (kvs : JObj) (r : List (String × JVal))
    (v : List String),
    keysLeft r v * (maxRefSize r + 1) + sizeO kvs ≤ n →
    (derefFuelObj n kvs r v).isSome = true
  | 0, kvs, r, v, hb => by
      have := one_le_sizeO kvs
      omega
  | n + 1, .nil, r, v, hb => by simp [derefFuelObj]
  | n + 1, .cons k x rest, r, v, hb => by
      have hsz : sizeO (JObj.cons k x rest) = 1 + sizeJ x + sizeO rest := rfl
      have hr1 := one_le_sizeO rest
      have hx1 := one_le_sizeJ x
      have hbx : keysLeft r v * (maxRefSize r + 1) + sizeJ x ≤ n := by omega
      have hx2 := derefFuel_complete n x r v hbx
      rcases hx : derefFuel n x r v with _ | ⟨y, vis2, b⟩
      · rw [hx] at hx2; simp at hx2
      · have hxs := derefFuel_sound n x r v _ hx
        simp only [Prod.mk.injEq] at hxs
        obtain ⟨e1, e2, e3⟩ := hxs
        rw [e2] at hx
        have hbr : keysLeft r v * (maxRefSize r + 1) + sizeO rest ≤ n := by omega
        have hR2 := derefFuelObj_complete n rest r v hbr
        rcases hR : derefFuelObj n rest r v with _ | ⟨ys, vis3, b2⟩
        · rw [hR] at hR2; simp at hR2
        · simp [derefFuelObj, hx, hR]
end

/-- For every schema, reference map and visited set there is enough fuel:
the executable dereferencer returns, and (by soundness) it returns the
functional value with the visited `Set` restored. -/
theorem derefFuel_pure (s : JVal) (r : List (String × JVal)) (v : List String) :
    ∃ n, derefFuel n s r v = some (dereferenceSchema s r v, v, derefHits s r v) := by
  refine ⟨keysLeft r v * (maxRefSize r + 1) + sizeJ s, ?_⟩
  have hc := derefFuel_complete (keysLeft r v * (maxRefSize r + 1) + sizeJ s) s r v le_rfl
  rcases h : derefFuel (keysLeft r v * (maxRefSize r + 1) + sizeJ s) s r v with _ | out
  · rw [h] at hc; simp at hc
  · have := derefFuel_sound _ s r v _ h
    rw [this]
    rfl

/-- Evaluation principle: read the functional dereferencer's value off a
successful concrete fuel run. -/
theorem derefFuel_eval_val (n : Nat) (s : JVal) (r : List (String × JVal))
    (v : List String) (y : JVal)
    (h : (derefFuel n s r v).map (fun o => o.1) = some y) :
    dereferenceSchema s r v = y := by
  rcases ho : derefFuel n s r v with _ | out
  · simp [ho] at h
  · rw [ho] at h
    simp only [Option.map_some', Option.some.injEq] at h
    have := derefFuel_sound n s r v _ ho
    rw [this] at h
    rw [← h]
    rfl

/-- Evaluation principle for the cycle-diagnostic flag. -/
theorem derefFuel_eval_hits (n : Nat) (s : JVal) (r : List (String × JVal))
    (v : List String) (b : Bool)
    (h : (derefFuel n s r v).map (fun o => o.2.2) = some b) :
    derefHits s r v = b := by
  rcases ho : derefFuel n s r v with _ | out
  · simp [ho] at h
  · rw [ho] at h
    simp only [Option.map_some', Option.some.injEq] at h
    have := derefFuel_sound n s r v _ ho
    rw [this] at h
    rw [← h]
    rfl

/-- `Object.entries` of an object body. -/
def jsEntriesObj : JObj → List (String × JVal)
  | .nil => []
  | .cons k v t => (k, v) :: jsEntriesObj t

/-- `Object.entries` of an array: index keys `"0"`, `"1"`, … . -/
def jsEntriesArr (i : Nat) : JArr → List (String × JVal)
  | .nil => []
  | .cons x xs => (toString i, x) :: jsEntriesArr (i + 1) xs

/-- `Object.entries` of an arbitrary value (empty off objects and arrays;
the one call site guards with `typeof === "object"` and truthiness, so
strings and primitives never reach it). -/
def jsEntries : JVal → List (String × JVal)
  | .obj kvs => jsEntriesObj kvs
  | .arr xs => jsEntriesArr 0 xs
  | _ => []

/-- `collectRefs(spec)`: walk `spec.components.schemas` and map every
entry `(name, schema)` to `("#/components/schemas/" + name, schema)`.
Reading `spec.components` throws when `spec` is `null`/`undefined`;
every other failure mode degrades to the empty map. -/
def collectRefs (spec : JVal) : Except Unit (List (String × JVal)) :=
  match getProp spec "components" with
  | .error e => .error e
  | .ok co =>
    if truthy co = false then .ok []
    else
      match getProp co "schemas" with
      | .error e => .error e
      | .ok s =>
        if truthy s && typeofObject s then
          .ok ((jsEntries s).map (fun kv => ("#/components/schemas/" ++ kv.1, kv.2)))
        else .ok []

/-- Key update of an object literal `(...obj, key: value)`: an existing
key keeps its position and gets the new value, a fresh key is appended. -/
def setKey : JObj → String → JVal → JObj
  | .nil, k, v => .cons k v .nil
  | .cons k0 v0 rest, k, v =>
      if k0 == k then .cons k0 v rest else .cons k0 v0 (setKey rest k v)

/-- Spread of a string into an object literal: index-keyed characters. -/
def spreadStr (i : Nat) : List Char → JObj
  | [] => .nil
  | c :: cs => .cons (toString i) (.str (String.mk [c])) (spreadStr (i + 1) cs)

/-- Spread of an array into an object literal: index-keyed elements. -/
def spreadArr (i : Nat) : JArr → JObj
  | .nil => .nil
  | .cons x xs => .cons (toString i) x (spreadArr (i + 1) xs)

/-- The own enumerable entries contributed by `...spec` in an object
literal: the entries of an object, index-keyed elements of an array,
index-keyed characters of a string, nothing for other primitives (and
spreading `null`/`undefined` contributes nothing rather than throwing). -/
def spreadOf : JVal → JObj
  | .obj kvs => kvs
  | .arr xs => spreadArr 0 xs
  | .str s => spreadStr 0 s.data
  | _ => .nil

/-- `dereferenceSpec(spec)`: build the reference map, then return
`(...spec, paths: deref(spec.paths), components: spec.components ?
deref(spec.components) : undefined)`. -/
def dereferenceSpec (spec : JVal) : Except Unit JVal :=
  match collectRefs spec with
  | .error e => .error e
  | .ok refMap =>
    match getProp spec "paths" with
    | .error e => .error e
    | .ok pa =>
      match getProp spec "components" with
      | .error e => .error e
      | .ok co =>
        .ok (.obj (setKey (setKey (spreadOf spec) "paths" (dereferenceSchema pa refMap []))
          "components" (if truthy co then dereferenceSchema co refMap [] else .undef)))

/-- `dereferenceAllSchemas(spec)`: dereference every entry of the
reference map independently, each with a fresh `visited` set. -/
def dereferenceAllSchemas (spec : JVal) : Except Unit (List (String × JVal)) :=
  match collectRefs spec with
  | .error e => .error e
  | .ok refMap => .ok (refMap.map (fun kv => (kv.1, dereferenceSchema kv.2 refMap [])))

/-- Computable companion of `dereferenceSpec` (fuel feeds the two
`derefFuel` runs); used only to evaluate concrete documents. -/
def dereferenceSpecFuel (n : Nat) (spec : JVal) : Option (Except Unit JVal) :=
  match collectRefs spec with
  | .error e => some (.error e)
  | .ok refMap =>
    match getProp spec "paths" with
    | .error e => some (.error e)
    | .ok pa =>
      match getProp spec "components" with
      | .error e => some (.error e)
      | .ok co =>
        match derefFuel n pa refMap [] with
        | none => none
        | some op =>
          if truthy co then
            match derefFuel n co refMap [] with
            | none => none
            | some oc =>
              some (.ok (.obj (setKey (setKey (spreadOf spec) "paths" op.1)
                "components" oc.1)))
          else
            some (.ok (.obj (setKey (setKey (spreadOf spec) "paths" op.1)
              "components" .undef)))

theorem dereferenceSpecFuel_sound (n : Nat) (spec : JVal) (res : Except Unit JVal)
    (h : dereferenceSpecFuel n spec = some res) : dereferenceSpec spec = res := by
  rcases hcr : collectRefs spec with e | refMap
  · simp only [dereferenceSpecFuel, hcr, Option.some.injEq] at h
    subst h
    simp [dereferenceSpec, hcr]
  · simp only [dereferenceSpecFuel, hcr] at h
    rcases hpa : getProp spec "paths" with e | pa
    · simp only [hpa, Option.some.injEq] at h
      subst h
      simp [dereferenceSpec, hcr, hpa]
    · simp only [hpa] at h
      rcases hco : getProp spec "components" with e | co
      · simp only [hco, Option.some.injEq] at h
        subst h
        simp [dereferenceSpec, hcr, hpa, hco]
      · simp only [hco] at h
        rcases hop : derefFuel n pa refMap [] with _ | op
        · simp [hop] at h
        · simp only [hop] at h
          have hops := derefFuel_sound n pa refMap [] _ hop
          by_cases ht : truthy co = true
          · rw [if_pos ht] at h
            rcases hoc : derefFuel n co refMap [] with _ | oc
            · simp [hoc] at h
            · simp only [hoc, Option.some.injEq] at h
              subst h
              have hocs := derefFuel_sound n co refMap [] _ hoc
              simp [dereferenceSpec, hcr, hpa, hco, ht, hops, hocs, dereferenceSchema]
          · rw [if_neg ht] at h
            simp only [Option.some.injEq] at h
            subst h
            have ht2 : truthy co = false := by simpa using ht
            simp [dereferenceSpec, hcr, hpa, hco, ht2, hops, dereferenceSchema]

mutual
/-- Structural equality test for modelled values. -/
def beqJ : JVal → JVal → Bool
  | .undef, .undef => true
  | .null, .null => true
  | .bool a, .bool b => a == b
  | .num a, .num b => a == b
  | .str a, .str b => a == b
  | .arr a, .arr b => beqA a b
  | .obj a, .obj b => beqO a b
  | _, _ => false

/-- Structural equality test for array bodies. -/
def beqA : JArr → JArr → Bool
  | .nil, .nil => true
  | .cons x xs, .cons y ys => beqJ x y && beqA xs ys
  | _, _ => false

/-- Structural equality test for object bodies. -/
def beqO : JObj → JObj → Bool
  | .nil, .nil => true
  | .cons k v t, .cons k2 v2 t2 => k == k2 && beqJ v v2 && beqO t t2
  | _, _ => false
end

mutual
theorem beqJ_refl : ∀ a : JVal, beqJ a a = true
  | .undef => rfl
  | .null => rfl
  | .bool b => by simp [beqJ]
  | .num n => by simp [beqJ]
  | .str s => by simp [beqJ]
  | .arr xs => by simp [beqJ, beqA_refl xs]
  | .obj kvs => by simp [beqJ, beqO_refl kvs]

theorem beqA_refl : ∀ xs : JArr, beqA xs xs = true
  | .nil => rfl
  | .cons x xs => by simp [beqA, beqJ_refl x, beqA_refl xs]

theorem beqO_refl : ∀ kvs : JObj, beqO kvs kvs = true
  | .nil => rfl
  | .cons k v t => by simp [beqO, beqJ_refl v, beqO_refl t]
end

theorem ne_of_beqJ_false {a b : JVal} (h : beqJ a b = false) : a ≠ b := by
  intro e
  subst e
  rw [beqJ_refl] at h
  cases h

/-- The reference path of the self-referential test schema. -/
def nodeRefPath : String := "#/components/schemas/Node"

/-- `Node`: an object schema whose property `next` refers back to `Node`. -/
def nodeSchema : JVal :=
  .obj (.cons "type" (.str "object")
    (.cons "properties" (.obj (.cons "next"
      (.obj (.cons "$ref" (.str nodeRefPath) .nil)) .nil)) .nil))

/-- A reference map binding `#/components/schemas/Node` to `nodeSchema`. -/
def nodeRefMap : List (String × JVal) := [(nodeRefPath, nodeSchema)]

/-- The Circular Placeholder value for a path. -/
def circularPlaceholder (p : String) : JVal :=
  .obj (.cons "$ref" (.str p) (.cons "_circular" (.bool true) .nil))

/-- The dereferenced form of `nodeSchema`: one full expansion of `next`,
whose own `next` is the Circular Placeholder. -/
def nodeExpanded : JVal :=
  .obj (.cons "type" (.str "object")
    (.cons "properties" (.obj (.cons "next"
      (.obj (.cons "type" (.str "object")
        (.cons "properties" (.obj (.cons "next"
          (circularPlaceholder nodeRefPath) .nil)) .nil))) .nil)) .nil))

/-- C2: for every schema node, reference map and visited set the
dereferencer terminates — the executable account returns a result for
some finite call-stack budget — and on the self-referential `Node`
example the second-level expansion `properties.next.properties.next` is
exactly the Circular Placeholder
`$ref: "#/components/schemas/Node", _circular: true`. -/
theorem dereferenceSchema_terminates_cycle_placeholder :
    (∀ (s : JVal) (r : List (String × JVal)) (v : List String),
      ∃ n out, derefFuel n s r v = some out) ∧
    jsProp (jsProp (jsProp (jsProp (dereferenceSchema nodeSchema nodeRefMap [])
        "properties") "next") "properties") "next" =
      .obj (.cons "$ref" (.str "#/components/schemas/Node")
        (.cons "_circular" (.bool true) .nil)) := by
  constructor
  · intro s r v
    obtain ⟨n, h⟩ := derefFuel_pure s r v
    exact ⟨n, _, h⟩
  · have hval : dereferenceSchema nodeSchema nodeRefMap [] = nodeExpanded :=
      derefFuel_eval_val 32 nodeSchema nodeRefMap [] nodeExpanded rfl
    rw [hval]
    rfl

/-- A plain string schema used as a shared reference target. -/
def leafSchema : JVal := .obj (.cons "type" (.str "string") .nil)

/-- The reference path of the shared leaf schema. -/
def leafRefPath : String := "#/components/schemas/Leaf"

/-- A reference map binding the leaf path to `leafSchema`. -/
def leafRefMap : List (String × JVal) := [(leafRefPath, leafSchema)]

/-- Two sibling properties referring to the same schema. -/
def siblingNode : JVal :=
  .obj (.cons "a" (.obj (.cons "$ref" (.str leafRefPath) .nil))
    (.cons "b" (.obj (.cons "$ref" (.str leafRefPath) .nil)) .nil))

/-- Both siblings fully expanded — the second is not a placeholder. -/
def siblingExpanded : JVal :=
  .obj (.cons "a" leafSchema (.cons "b" leafSchema .nil))

/-- C3: cycle-detection state does not leak between sibling branches.
The literal execution — one mutable visited `Set` threaded through every
sibling iteration, `add` before descending into a resolved target,
`delete` on return — computes exactly the path-scoped functional value
and hands the `Set` back in its original state, so a placeholder is
emitted for a path precisely when the path-scoped `visited` of the
functional account (the chain of references currently being expanded
above the occurrence) contains it.  Concretely, a reference fully
expanded under sibling `a` is expanded again under sibling `b`, not
flagged circular. -/
theorem dereferenceSchema_visited_path_scoped :
    (∀ (s : JVal) (r : List (String × JVal)) (v : List String),
      ∃ n, derefFuel n s r v = some (dereferenceSchema s r v, v, derefHits s r v)) ∧
    dereferenceSchema siblingNode leafRefMap [] = siblingExpanded := by
  constructor
  · exact derefFuel_pure
  · exact derefFuel_eval_val 32 siblingNode leafRefMap [] siblingExpanded rfl

/-- C5: a dangling reference degrades gracefully — a `$ref` node whose
path is absent from the reference map comes back as (a shallow copy of)
the very same node, `$ref` and sibling keys intact; no error is raised
(the embedding is a total function). -/
theorem dereferenceSchema_dangling_preserved (kvs : JObj) (r : List (String × JVal))
    (p : String) (hk : asStr (lookupKey kvs "$ref") = some p)
    (hl : lookupRef r p = none) :
    dereferenceSchema (.obj kvs) r [] = .obj kvs := by
  unfold dereferenceSchema
  rw [derefCore_obj_dangling hk (show ([] : List String).contains p = false from rfl) hl]

/-- Witness for C5: dereferencing `$ref: "#/components/schemas/Missing"`
against an empty index returns the node unchanged. -/
theorem dereferenceSchema_dangling_preserved_witness :
    asStr (lookupKey (JObj.cons "$ref" (.str "#/components/schemas/Missing") .nil) "$ref") =
        some "#/components/schemas/Missing" ∧
    lookupRef [] "#/components/schemas/Missing" = none ∧
    dereferenceSchema (.obj (.cons "$ref" (.str "#/components/schemas/Missing") .nil)) [] [] =
      .obj (.cons "$ref" (.str "#/components/schemas/Missing") .nil) :=
  ⟨rfl, rfl,
    dereferenceSchema_dangling_preserved
      (.cons "$ref" (.str "#/components/schemas/Missing") .nil) [] _ rfl rfl⟩

/-- C9: a reference whose path is present in the map but bound to a falsy
value (`null`, `false`, `0`, `""` — and `undefined` stored as a value) is
treated exactly like a dangling reference: the `$ref` node itself is
returned, not the falsy indexed value, because the lookup result is
tested for truthiness (`if (!resolved)`), not for key presence. -/
theorem dereferenceSchema_falsy_target_preserved (kvs : JObj) (r : List (String × JVal))
    (p : String) (w : JVal) (hk : asStr (lookupKey kvs "$ref") = some p)
    (hl : lookupRef r p = some w) (hw : truthy w = false) :
    dereferenceSchema (.obj kvs) r [] = .obj kvs := by
  unfold dereferenceSchema
  rw [derefCore_obj_falsy hk (show ([] : List String).contains p = false from rfl) hl hw]

/-- Witness for C9: a path bound to `null` in the map behaves like a
missing path — the `$ref` node is preserved and the `null` is not
substituted. -/
theorem dereferenceSchema_falsy_target_preserved_witness :
    asStr (lookupKey (JObj.cons "$ref" (.str "#/components/schemas/Nullish") .nil) "$ref") =
        some "#/components/schemas/Nullish" ∧
    lookupRef [("#/components/schemas/Nullish", .null)] "#/components/schemas/Nullish" =
        some .null ∧
    truthy .null = false ∧
    dereferenceSchema (.obj (.cons "$ref" (.str "#/components/schemas/Nullish") .nil))
        [("#/components/schemas/Nullish", .null)] [] =
      .obj (.cons "$ref" (.str "#/components/schemas/Nullish") .nil) :=
  ⟨rfl, rfl, rfl,
    dereferenceSchema_falsy_target_preserved
      (.cons "$ref" (.str "#/components/schemas/Nullish") .nil)
      [("#/components/schemas/Nullish", .null)] _ .null rfl rfl rfl⟩

theorem getProp_of_ne (v : JVal) (k : String) (h1 : v ≠ .undef) (h2 : v ≠ .null) :
    getProp v k = .ok (jsProp v k) := by
  cases v <;> first | rfl | exact absurd rfl h1 | exact absurd rfl h2

theorem getProp_of_truthy (v : JVal) (k : String) (h : truthy v = true) :
    getProp v k = .ok (jsProp v k) := by
  cases v <;> first | rfl | simp [truthy] at h

/-- The Reference Index Builder as §4.1 of the spec describes it, written
as a total function of the document: empty when `components` is falsy or
`components.schemas` is falsy or not `typeof "object"`; otherwise one
entry `("#/components/schemas/" + name, schemaNode)` per entry of
`components.schemas`.  Used to compare the implementation against the
spec's words. -/
def collectRefsDescr (spec : JVal) : List (String × JVal) :=
  let co := jsProp spec "components"
  if truthy co = false then []
  else
    let s := jsProp co "schemas"
    if truthy s && typeofObject s then
      (jsEntries s).map (fun kv => ("#/components/schemas/" ++ kv.1, kv.2))
    else []

/-- C6 counterexample: the Reference Index Builder does fail on
`undefined` — `collectRefs(undefined)` reads `spec.components` off
`undefined` and throws a `TypeError`, it does not return an empty index. -/
theorem collectRefs_undefined_throws : collectRefs .undef = .error () := rfl

/-- C6 (amended): for every input other than `undefined` and `null`, the
Reference Index Builder does not fail and returns exactly the index the
spec describes: empty when `components.schemas` is absent, falsy or not
`typeof "object"`, and otherwise one entry
`("#/components/schemas/" + name, schemaNode)` — the original node, not
a copy — per entry of `components.schemas` (for an array, its
`Object.entries`, keyed by index). -/
theorem collectRefs_total_and_exact (spec : JVal) (h1 : spec ≠ .undef)
    (h2 : spec ≠ .null) : collectRefs spec = .ok (collectRefsDescr spec) := by
  unfold collectRefs collectRefsDescr
  rw [getProp_of_ne spec "components" h1 h2]
  by_cases ht : truthy (jsProp spec "components") = true
  · simp [getProp_of_truthy _ _ ht, ht]
    split <;> rfl
  · have ht2 : truthy (jsProp spec "components") = false := by simpa using ht
    simp [ht2]

/-- Witness for C6: on a document with one named schema the builder
returns exactly the expected single prefixed entry. -/
theorem collectRefs_total_and_exact_witness :
    collectRefs (.obj (.cons "components" (.obj (.cons "schemas"
        (.obj (.cons "A" leafSchema .nil)) .nil)) .nil)) =
      .ok (collectRefsDescr (.obj (.cons "components" (.obj (.cons "schemas"
        (.obj (.cons "A" leafSchema .nil)) .nil)) .nil))) ∧
    collectRefsDescr (.obj (.cons "components" (.obj (.cons "schemas"
        (.obj (.cons "A" leafSchema .nil)) .nil)) .nil)) =
      [("#/components/schemas/A", leafSchema)] :=
  ⟨collectRefs_total_and_exact _ (fun h => JVal.noConfusion h)
    (fun h => JVal.noConfusion h), rfl⟩

/-- A cyclic specification document: `components.schemas.Node` refers to
itself through `properties.next`. -/
def cyclicSpec : JVal :=
  .obj (.cons "openapi" (.str "3.0.1")
    (.cons "paths" (.obj .nil)
      (.cons "components" (.obj (.cons "schemas"
        (.obj (.cons "Node" nodeSchema .nil)) .nil)) .nil)))

/-- First dereferencing pass over `cyclicSpec`: `Node` expands once and
bottoms out in a Circular Placeholder. -/
def cyclicOut1 : JVal :=
  .obj (.cons "openapi" (.str "3.0.1")
    (.cons "paths" (.obj .nil)
      (.cons "components" (.obj (.cons "schemas"
        (.obj (.cons "Node" nodeExpanded .nil)) .nil)) .nil)))

/-- `Node` after the second pass: the placeholder of the first pass still
carries a resolvable `$ref`, so it is expanded one level further and a
new placeholder appears one level deeper. -/
def nodeExpandedTwice : JVal :=
  .obj (.cons "type" (.str "object")
    (.cons "properties" (.obj (.cons "next"
      (.obj (.cons "type" (.str "object")
        (.cons "properties" (.obj (.cons "next"
          nodeExpanded .nil)) .nil))) .nil)) .nil))

/-- Second dereferencing pass over the first pass's output. -/
def cyclicOut2 : JVal :=
  .obj (.cons "openapi" (.str "3.0.1")
    (.cons "paths" (.obj .nil)
      (.cons "components" (.obj (.cons "schemas"
        (.obj (.cons "Node" nodeExpandedTwice .nil)) .nil)) .nil)))

/-- C10: Circular Placeholders still carry a resolvable `$ref`, so on
this cyclic document applying `dereferenceSpec` to its own output is not
the identity: the second run terminates but expands each placeholder one
level further, emitting a new placeholder one level deeper — the
acyclicity precondition of the idempotence property is necessary. -/
theorem dereferenceSpec_not_idempotent_on_cycle :
    dereferenceSpec cyclicSpec = .ok cyclicOut1 ∧
    dereferenceSpec cyclicOut1 = .ok cyclicOut2 ∧
    cyclicOut1 ≠ cyclicOut2 :=
  ⟨dereferenceSpecFuel_sound 32 cyclicSpec (.ok cyclicOut1) rfl,
   dereferenceSpecFuel_sound 32 cyclicOut1 (.ok cyclicOut2) rfl,
   ne_of_beqJ_false rfl⟩

/-- `Array.isArray`. -/
def isArrJ : JVal → Bool
  | .arr _ => true
  | _ => false

/-- `v === "<literal>"`: strict equality of a value against a string
literal is true only for the equal string. -/
def isTypeStr (v : JVal) (s : String) : Bool :=
  match v with
  | .str t => t == s
  | _ => false

/-- JSON string escaping of one character (quote and backslash; control
characters do not occur in the values this spec exercises). -/
def escapeJsonChar (c : Char) : String :=
  if c = '"' then "\\\""
  else if c = '\\' then "\\\\"
  else String.mk [c]

/-- JSON string escaping. -/
def escapeChars : List Char → String
  | [] => ""
  | c :: cs => escapeJsonChar c ++ escapeChars cs

mutual
/-- `JSON.stringify` on modelled values (`none` for `undefined`). -/
def jsonStringify : JVal → Option String
  | .undef => none
  | .null => some "null"
  | .bool b => some (if b then "true" else "false")
  | .num n => some (toString n)
  | .str s => some ("\"" ++ escapeChars s.data ++ "\"")
  | .arr xs => some ("[" ++ jsonStringifyArr xs ++ "]")
  | .obj kvs => some ("\x7b" ++ String.intercalate "," (jsonStringifyObj kvs) ++ "\x7d")

/-- `JSON.stringify` of array elements (`undefined` elements render as
`null`), comma-joined. -/
def jsonStringifyArr : JArr → String
  | .nil => ""
  | .cons x .nil => (jsonStringify x).getD "null"
  | .cons x xs => (jsonStringify x).getD "null" ++ "," ++ jsonStringifyArr xs

/-- `JSON.stringify` of object entries (entries with `undefined` values
are skipped). -/
def jsonStringifyObj : JObj → List String
  | .nil => []
  | .cons k v t =>
    match jsonStringify v with
    | none => jsonStringifyObj t
    | some sv => ("\"" ++ escapeChars k.data ++ "\":" ++ sv) :: jsonStringifyObj t
end

/-- `schema.enum.map(v => JSON.stringify(v))` with the `Array.prototype.join`
convention that `undefined` entries render as the empty string. -/
def stringifyEnum : JArr → List String
  | .nil => []
  | .cons x xs => ((jsonStringify x).getD "") :: stringifyEnum xs

/-- `Object.entries` of a string as an object body: index-keyed
single-character strings.  `simplifySchema` of a single-character string
— a primitive — returns it unchanged, so the recursive call on these
entries is inlined as the identity. -/
def charProps (i : Nat) : List Char → JObj
  | [] => .nil
  | c :: cs => .cons (toString i) (.str (String.mk [c])) (charProps (i + 1) cs)

theorem sizeJ_lookup_lt : ∀ (kvs : JObj) (key : String) (w : JVal),
    lookupKey kvs key = some w → sizeJ w < sizeO kvs
  | .nil, key, w, h => by simp [lookupKey] at h
  | .cons k v t, key, w, h => by
      simp only [lookupKey] at h
      by_cases hk : k == key
      · rw [if_pos hk] at h
        simp only [Option.some.injEq] at h
        subst h
        simp only [sizeO]
        omega
      · rw [if_neg hk] at h
        have := sizeJ_lookup_lt t key w h
        simp only [sizeO]
        omega

theorem sizeJ_jsProp_lt_of_ne (schema : JVal) (key : String)
    (h : jsProp schema key ≠ .undef) : sizeJ (jsProp schema key) < sizeJ schema := by
  cases schema
  case obj kvs =>
    simp only [jsProp] at h ⊢
    rcases hl : lookupKey kvs key with _ | w
    · rw [hl] at h; simp at h
    · simp only [Option.getD_some]
      have := sizeJ_lookup_lt kvs key w hl
      simp only [sizeJ]
      omega
  all_goals simp [jsProp] at h

theorem truthy_ne_undef {v : JVal} (h : truthy v = true) : v ≠ .undef := by
  intro e
  subst e
  simp [truthy] at h

mutual
/-- `simplifySchema(schema)`: the presentation projection.  Branches in
source order: falsy or non-object input returned as is; a truthy `$ref`
short-circuits to `($ref: <that value>)`; `type === "object"` with truthy
`properties` maps the entries recursively; `type === "array"` renders
`"array of <x>"` for string-simplified items, a nested object otherwise,
`"array"` without items; `type === "string"` renders the enum summary
(`schema.enum.map(JSON.stringify).join(", ")` — which THROWS when `enum`
is truthy but not an array, since only arrays have `.map`), else the
`format` value, else `"string"`; `number`/`integer`/`boolean` render
their type; otherwise `schema.type || schema`. -/
def simplifySchema (schema : JVal) : Except Unit JVal :=
  if truthy schema = false then .ok schema
  else if typeofObject schema = false then .ok schema
  else if truthy (jsProp schema "$ref") then
    .ok (.obj (.cons "$ref" (jsProp schema "$ref") .nil))
  else if isTypeStr (jsProp schema "type") "object" && truthy (jsProp schema "properties") then
    match hp : jsProp schema "properties" with
    | .obj pkvs =>
      match simplifyProps pkvs with
      | .error e => .error e
      | .ok res => .ok (.obj res)
    | .arr pxs =>
      match simplifyPropsArr 0 pxs with
      | .error e => .error e
      | .ok res => .ok (.obj res)
    | .str s => .ok (.obj (charProps 0 s.data))
    | _ => .ok (.obj .nil)
  else if isTypeStr (jsProp schema "type") "array" then
    if hit : truthy (jsProp schema "items") = true then
      match simplifySchema (jsProp schema "items") with
      | .error e => .error e
      | .ok (.str s) => .ok (.str ("array of " ++ s))
      | .ok it => .ok (.obj (.cons "type" (.str "array") (.cons "items" it .nil)))
    else .ok (.str "array")
  else if isTypeStr (jsProp schema "type") "string" then
    if truthy (jsProp schema "enum") then
      match jsProp schema "enum" with
      | .arr xs =>
        .ok (.str ("enum (" ++ String.intercalate ", " (stringifyEnum xs) ++ ")"))
      | _ => .error ()
    else if truthy (jsProp schema "format") then .ok (jsProp schema "format")
    else .ok (.str "string")
  else if isTypeStr (jsProp schema "type") "number"
      || isTypeStr (jsProp schema "type") "integer" then
    .ok (jsProp schema "type")
  else if isTypeStr (jsProp schema "type") "boolean" then .ok (.str "boolean")
  else if truthy (jsProp schema "type") then .ok (jsProp schema "type")
  else .ok schema
termination_by sizeJ schema
decreasing_by
  · have hlt := sizeJ_jsProp_lt_of_ne schema "properties"
      (by rw [hp]; exact fun e => JVal.noConfusion e)
    rw [hp] at hlt
    simp only [sizeJ] at hlt
    omega
  · have hlt := sizeJ_jsProp_lt_of_ne schema "properties"
      (by rw [hp]; exact fun e => JVal.noConfusion e)
    rw [hp] at hlt
    simp only [sizeJ] at hlt
    omega
  · exact sizeJ_jsProp_lt_of_ne schema "items" (truthy_ne_undef hit)

/-- Entry-wise simplification of an object-shaped `properties` value
(`result[propName] = simplifySchema(propSchema)` in entry order). -/
def simplifyProps : JObj → Except Unit JObj
  | .nil => .ok .nil
  | .cons k v t =>
    match simplifySchema v with
    | .error e => .error e
    | .ok sv =>
      match simplifyProps t with
      | .error e => .error e
      | .ok st => .ok (.cons k sv st)
termination_by kvs => sizeO kvs
decreasing_by
  · simp only [sizeO]; omega
  · simp only [sizeO]; omega

/-- Entry-wise simplification of an array-shaped `properties` value
(`Object.entries` of an array: index keys). -/
def simplifyPropsArr (i : Nat) : JArr → Except Unit JObj
  | .nil => .ok .nil
  | .cons x xs =>
    match simplifySchema x with
    | .error e => .error e
    | .ok sx =>
      match simplifyPropsArr (i + 1) xs with
      | .error e => .error e
      | .ok st => .ok (.cons (toString i) sx st)
termination_by xs => sizeA xs
decreasing_by
  · simp only [sizeA]; omega
  · simp only [sizeA]; omega
end

mutual
/-- No node of the tree triggers the simplifier's one throwing site: an
object that reaches the string branch (falsy `$ref`, `type === "string"`)
with a truthy, non-array `enum`. -/
def enumSafe : JVal → Bool
  | .undef => true
  | .null => true
  | .bool _ => true
  | .num _ => true
  | .str _ => true
  | .arr xs => enumSafeArr xs
  | .obj kvs =>
      (truthy (jsProp (.obj kvs) "$ref")
        || !isTypeStr (jsProp (.obj kvs) "type") "string"
        || !truthy (jsProp (.obj kvs) "enum")
        || isArrJ (jsProp (.obj kvs) "enum"))
      && enumSafeObj kvs

/-- All elements safe. -/
def enumSafeArr : JArr → Bool
  | .nil => true
  | .cons x xs => enumSafe x && enumSafeArr xs

/-- All entry values safe. -/
def enumSafeObj : JObj → Bool
  | .nil => true
  | .cons _ v t => enumSafe v && enumSafeObj t
end

theorem enumSafe_lookup : ∀ (kvs : JObj) (key : String) (w : JVal),
    enumSafeObj kvs = true → lookupKey kvs key = some w → enumSafe w = true
  | .nil, key, w, h, hl => by simp [lookupKey] at hl
  | .cons k v t, key, w, h, hl => by
      simp only [enumSafeObj, Bool.and_eq_true] at h
      simp only [lookupKey] at hl
      by_cases hk : k == key
      · rw [if_pos hk] at hl
        simp only [Option.some.injEq] at hl
        subst hl
        exact h.1
      · rw [if_neg hk] at hl
        exact enumSafe_lookup t key w h.2 hl

theorem enumSafe_jsProp (s : JVal) (key : String) (hs : enumSafe s = true) :
    enumSafe (jsProp s key) = true := by
  cases s
  case obj kvs =>
    simp only [enumSafe, Bool.and_eq_true] at hs
    simp only [jsProp]
    rcases hl : lookupKey kvs key with _ | w
    · simp [enumSafe]
    · simp only [Option.getD_some]
      exact enumSafe_lookup kvs key w hs.2 hl
  all_goals simp [jsProp, enumSafe]

theorem enumSafe_node {kvs : JObj} (hs : enumSafe (.obj kvs) = true)
    (h3 : truthy (jsProp (.obj kvs) "$ref") = false)
    (h7 : isTypeStr (jsProp (.obj kvs) "type") "string" = true)
    (h8 : truthy (jsProp (.obj kvs) "enum") = true) :
    isArrJ (jsProp (.obj kvs) "enum") = true := by
  unfold enumSafe at hs
  rw [h3, h7, h8] at hs
  simp only [Bool.false_or, Bool.not_true, Bool.and_eq_true] at hs
  exact hs.1

theorem except_isOk_ok {α : Type} (a : α) : (Except.ok a : Except Unit α).isOk = true := rfl

theorem except_isOk_error {α : Type} (e : Unit) :
    (Except.error e : Except Unit α).isOk = false := rfl

mutual
/-- Under `enumSafe`, the simplifier cannot reach its throwing site and
returns a display value on every branch. -/
theorem simplifySchema_ok (schema : JVal) (hs : enumSafe schema = true) :
    (simplifySchema schema).isOk = true := by
  unfold simplifySchema
  by_cases h1 : truthy schema = false
  · rw [if_pos h1]
    rfl
  · rw [if_neg h1]
    by_cases h2 : typeofObject schema = false
    · rw [if_pos h2]
      rfl
    · rw [if_neg h2]
      by_cases h3 : truthy (jsProp schema "$ref") = true
      · rw [if_pos h3]
        rfl
      · rw [if_neg h3]
        by_cases h4 : (isTypeStr (jsProp schema "type") "object"
            && truthy (jsProp schema "properties")) = true
        · rw [if_pos h4]
          rcases hp : jsProp schema "properties" with _ | _ | _ | _ | ps | pxs | pkvs
          · rfl
          · rfl
          · rfl
          · rfl
          · rfl
          · have hsafe : enumSafeArr pxs = true := by
              have := enumSafe_jsProp schema "properties" hs
              rw [hp] at this
              unfold enumSafe at this
              exact this
            have hok := simplifyPropsArr_ok 0 pxs hsafe
            rcases hsp : simplifyPropsArr 0 pxs with e | res
            · rw [hsp] at hok
              exact absurd hok (by rw [except_isOk_error]; exact Bool.false_ne_true)
            · first
                | rfl
                | (simp only [hsp]; rfl)
          · have hsafe : enumSafeObj pkvs = true := by
              have := enumSafe_jsProp schema "properties" hs
              rw [hp] at this
              unfold enumSafe at this
              simp only [Bool.and_eq_true] at this
              exact this.2
            have hok := simplifyProps_ok pkvs hsafe
            rcases hsp : simplifyProps pkvs with e | res
            · rw [hsp] at hok
              exact absurd hok (by rw [except_isOk_error]; exact Bool.false_ne_true)
            · first
                | rfl
                | (simp only [hsp]; rfl)
        · rw [if_neg h4]
          by_cases h5 : isTypeStr (jsProp schema "type") "array" = true
          · rw [if_pos h5]
            by_cases h6 : truthy (jsProp schema "items") = true
            · rw [dif_pos h6]
              have hok := simplifySchema_ok (jsProp schema "items")
                (enumSafe_jsProp schema "items" hs)
              rcases hri : simplifySchema (jsProp schema "items") with e | it
              · rw [hri] at hok
                exact absurd hok (by rw [except_isOk_error]; exact Bool.false_ne_true)
              · cases it <;> rfl
            · rw [dif_neg h6]
              rfl
          · rw [if_neg h5]
            by_cases h7 : isTypeStr (jsProp schema "type") "string" = true
            · rw [if_pos h7]
              by_cases h8 : truthy (jsProp schema "enum") = true
              · rw [if_pos h8]
                have hobj : ∃ kvs, schema = JVal.obj kvs := by
                  cases schema
                  case obj kvs => exact ⟨kvs, rfl⟩
                  all_goals simp [jsProp, truthy] at h8
                obtain ⟨kvs, rfl⟩ := hobj
                have harr := enumSafe_node hs (by simpa using h3) h7 h8
                rcases he : jsProp (JVal.obj kvs) "enum" with _ | _ | _ | _ | _ | xs | _
                · rw [he] at harr; exact Bool.noConfusion harr
                · rw [he] at harr; exact Bool.noConfusion harr
                · rw [he] at harr; exact Bool.noConfusion harr
                · rw [he] at harr; exact Bool.noConfusion harr
                · rw [he] at harr; exact Bool.noConfusion harr
                · rfl
                · rw [he] at harr; exact Bool.noConfusion harr
              · rw [if_neg h8]
                by_cases h9 : truthy (jsProp schema "format") = true
                · rw [if_pos h9]
                  rfl
                · rw [if_neg h9]
                  rfl
            · rw [if_neg h7]
              by_cases h10 : (isTypeStr (jsProp schema "type") "number"
                  || isTypeStr (jsProp schema "type") "integer") = true
              · rw [if_pos h10]
                rfl
              · rw [if_neg h10]
                by_cases h11 : isTypeStr (jsProp schema "type") "boolean" = true
                · rw [if_pos h11]
                  rfl
                · rw [if_neg h11]
                  by_cases h12 : truthy (jsProp schema "type") = true
                  · rw [if_pos h12]
                    rfl
                  · rw [if_neg h12]
                    rfl
termination_by sizeJ schema
decreasing_by
  · have hlt := sizeJ_jsProp_lt_of_ne schema "properties"
      (by rw [hp]; exact fun e => JVal.noConfusion e)
    rw [hp] at hlt
    simp only [sizeJ] at hlt
    omega
  · have hlt := sizeJ_jsProp_lt_of_ne schema "properties"
      (by rw [hp]; exact fun e => JVal.noConfusion e)
    rw [hp] at hlt
    simp only [sizeJ] at hlt
    omega
  · exact sizeJ_jsProp_lt_of_ne schema "items" (truthy_ne_undef h6)

/-- Walker counterpart of `simplifySchema_ok` for object-shaped
`properties`. -/
theorem simplifyProps_ok : ∀ (kvs : JObj), enumSafeObj kvs = true →
    (simplifyProps kvs).isOk = true
  | .nil, h => by
      unfold simplifyProps
      rfl
  | .cons k v t, h => by
      unfold simplifyProps
      simp only [enumSafeObj, Bool.and_eq_true] at h
      have hv := simplifySchema_ok v h.1
      rcases hsv : simplifySchema v with e | sv
      · rw [hsv] at hv
        exact absurd hv (by rw [except_isOk_error]; exact Bool.false_ne_true)
      · simp only [hsv]
        have ht := simplifyProps_ok t h.2
        rcases hst : simplifyProps t with e | st
        · rw [hst] at ht
          exact absurd ht (by rw [except_isOk_error]; exact Bool.false_ne_true)
        · rfl
termination_by kvs => sizeO kvs
decreasing_by
  · simp only [sizeO]; omega
  · simp only [sizeO]; omega

/-- Walker counterpart of `simplifySchema_ok` for array-shaped
`properties`. -/
theorem simplifyPropsArr_ok : ∀ (i : Nat) (xs : JArr), enumSafeArr xs = true →
    (simplifyPropsArr i xs).isOk = true
  | i, .nil, h => by
      unfold simplifyPropsArr
      rfl
  | i, .cons x xs, h => by
      unfold simplifyPropsArr
      simp only [enumSafeArr, Bool.and_eq_true] at h
      have hv := simplifySchema_ok x h.1
      rcases hsv : simplifySchema x with e | sx
      · rw [hsv] at hv
        exact absurd hv (by rw [except_isOk_error]; exact Bool.false_ne_true)
      · simp only [hsv]
        have ht := simplifyPropsArr_ok (i + 1) xs h.2
        rcases hst : simplifyPropsArr (i + 1) xs with e | st
        · rw [hst] at ht
          exact absurd ht (by rw [except_isOk_error]; exact Bool.false_ne_true)
        · rfl
termination_by i xs => sizeA xs
decreasing_by
  · simp only [sizeA]; omega
  · simp only [sizeA]; omega
end

/-- C7 counterexample: the Schema Simplifier does raise on a
malformed-but-well-typed node — for `type: "string"` with the non-array
truthy `enum: 5`, `schema.enum.map` is not a function and the call
throws a `TypeError`. -/
theorem simplifySchema_nonarray_enum_throws :
    simplifySchema (.obj (.cons "type" (.str "string")
      (.cons "enum" (.num 5) .nil))) = .error () := by
  unfold simplifySchema
  rfl

/-- C7 (amended): the Schema Simplifier returns a display value and does
not throw for every input in which no object node combines a falsy
`$ref`, `type === "string"`, and a truthy non-array `enum` — the sole
throwing site.  (The claim as stated, covering all
malformed-but-well-typed nodes including a non-array `enum`, is refuted
by the counterexample.) -/
theorem simplifySchema_total_when_enum_safe (schema : JVal)
    (hs : enumSafe schema = true) : (simplifySchema schema).isOk = true :=
  simplifySchema_ok schema hs

/-- Witness for C7: a well-formed enum schema is safe and simplifies
without error. -/
theorem simplifySchema_total_when_enum_safe_witness :
    enumSafe (.obj (.cons "type" (.str "string")
      (.cons "enum" (.arr (.cons (.str "a") (.cons (.str "b") .nil))) .nil))) = true ∧
    (simplifySchema (.obj (.cons "type" (.str "string")
      (.cons "enum" (.arr (.cons (.str "a") (.cons (.str "b") .nil))) .nil)))).isOk = true :=
  ⟨rfl, simplifySchema_total_when_enum_safe _ rfl⟩

mutual
/-- Every object node's `$ref` key, when present, holds a string (the
shape §3 of the spec gives reference markers: `$ref: <path string>`). -/
def refsAreStrings : JVal → Bool
  | .undef => true
  | .null => true
  | .bool _ => true
  | .num _ => true
  | .str _ => true
  | .arr xs => refsAreStringsArr xs
  | .obj kvs =>
      (match lookupKey kvs "$ref" with
       | none => true
       | some (.str _) => true
       | some _ => false) && refsAreStringsObj kvs

/-- All elements. -/
def refsAreStringsArr : JArr → Bool
  | .nil => true
  | .cons x xs => refsAreStrings x && refsAreStringsArr xs

/-- All entry values. -/
def refsAreStringsObj : JObj → Bool
  | .nil => true
  | .cons _ v t => refsAreStrings v && refsAreStringsObj t
end

mutual
/-- Every string-valued `$ref` occurring anywhere in the tree resolves to
a truthy entry of the reference map. -/
def allRefsResolve (r : List (String × JVal)) : JVal → Bool
  | .undef => true
  | .null => true
  | .bool _ => true
  | .num _ => true
  | .str _ => true
  | .arr xs => allRefsResolveArr r xs
  | .obj kvs =>
      (match asStr (lookupKey kvs "$ref") with
       | none => true
       | some p =>
         match lookupRef r p with
         | none => false
         | some w => truthy w) && allRefsResolveObj r kvs

/-- All elements. -/
def allRefsResolveArr (r : List (String × JVal)) : JArr → Bool
  | .nil => true
  | .cons x xs => allRefsResolve r x && allRefsResolveArr r xs

/-- All entry values. -/
def allRefsResolveObj (r : List (String × JVal)) : JObj → Bool
  | .nil => true
  | .cons _ v t => allRefsResolve r v && allRefsResolveObj r t
end

mutual
/-- No object node anywhere in the tree carries a key literally named
`$ref` — the serialized form contains zero occurrences of the key. -/
def refFree : JVal → Bool
  | .undef => true
  | .null => true
  | .bool _ => true
  | .num _ => true
  | .str _ => true
  | .arr xs => refFreeArr xs
  | .obj kvs => refFreeObj kvs

/-- All elements. -/
def refFreeArr : JArr → Bool
  | .nil => true
  | .cons x xs => refFree x && refFreeArr xs

/-- Keys differ from `$ref` and all values are reference-free. -/
def refFreeObj : JObj → Bool
  | .nil => true
  | .cons k v t => (k != "$ref") && refFree v && refFreeObj t
end

/-- The keys of an object body, in order. -/
def keysO : JObj → List String
  | .nil => []
  | .cons k _ t => k :: keysO t

theorem lookupKey_none_of_not_mem : ∀ {kvs : JObj} {key : String},
    key ∉ keysO kvs → lookupKey kvs key = none
  | .nil, key, h => rfl
  | .cons k v t, key, h => by
      have h1 : k ≠ key := fun e => h (by simp [keysO, e])
      have h2 : key ∉ keysO t := fun e => h (by simp [keysO, e])
      simp only [lookupKey, show (k == key) = false by simpa using h1, if_false]
      exact lookupKey_none_of_not_mem h2

theorem not_mem_of_lookupKey_none : ∀ {kvs : JObj} {key : String},
    lookupKey kvs key = none → key ∉ keysO kvs
  | .nil, key, h => by simp [keysO]
  | .cons k v t, key, h => by
      simp only [lookupKey] at h
      by_cases hk : k == key
      · rw [if_pos hk] at h
        cases h
      · rw [if_neg hk] at h
        have := not_mem_of_lookupKey_none h
        simp only [keysO, List.mem_cons]
        rintro (e | e)
        · exact hk (by simp [e])
        · exact this e

/-- Values-only reference freedom (keys handled separately). -/
def refFreeVals : JObj → Bool
  | .nil => true
  | .cons _ v t => refFree v && refFreeVals t

theorem refFreeObj_of_keys : ∀ {a : JObj}, "$ref" ∉ keysO a →
    refFreeVals a = true → refFreeObj a = true
  | .nil, _, _ => rfl
  | .cons k v t, hk, hv => by
      simp only [keysO, List.mem_cons] at hk
      simp only [refFreeVals, Bool.and_eq_true] at hv
      have h1 : (k != "$ref") = true := by
        simp only [bne_iff_ne]
        exact fun e => hk (Or.inl e.symm)
      simp only [refFreeObj, Bool.and_eq_true]
      exact ⟨⟨h1, hv.1⟩, refFreeObj_of_keys (fun e => hk (Or.inr e)) hv.2⟩

theorem lookupRef_mem : ∀ {r : List (String × JVal)} {p : String} {w : JVal},
    lookupRef r p = some w → ∃ k, (k, w) ∈ r := by
  intro r
  induction r with
  | nil => intro p w h; simp [lookupRef] at h
  | cons kv rest ih =>
    intro p w h
    simp only [lookupRef] at h
    by_cases hk : kv.1 == p
    · rw [if_pos hk] at h
      simp only [Option.some.injEq] at h
      exact ⟨kv.1, by simp [← h]⟩
    · rw [if_neg hk] at h
      obtain ⟨k, hm⟩ := ih h
      exact ⟨k, List.mem_cons.mpr (Or.inr hm)⟩

/-- The rebuilt reference map after one full dereferencing pass: same
keys, each value dereferenced against the original map with a fresh
visited set. -/
def mapDeref (r : List (String × JVal)) : List (String × JVal) :=
  r.map (fun kv => (kv.1, dereferenceSchema kv.2 r []))

theorem lookupRef_mapDeref : ∀ (r0 r : List (String × JVal)) (p : String),
    lookupRef (r.map (fun kv => (kv.1, dereferenceSchema kv.2 r0 []))) p =
      (lookupRef r p).map (fun w => dereferenceSchema w r0 []) := by
  intro r0 r
  induction r with
  | nil => intro p; rfl
  | cons kv rest ih =>
    intro p
    simp only [List.map_cons, lookupRef]
    by_cases hk : kv.1 == p
    · rw [if_pos hk, if_pos hk]
      rfl
    · rw [if_neg hk, if_neg hk]
      exact ih p

theorem deref_falsy {w : JVal} (r : List (String × JVal)) (v : List String)
    (hw : truthy w = false) : dereferenceSchema w r v = w := by
  cases w
  · exact congrArg Prod.fst (derefCore_undef r v)
  · exact congrArg Prod.fst (derefCore_null r v)
  · unfold dereferenceSchema
    rw [derefCore_bool]
  · unfold dereferenceSchema
    rw [derefCore_num]
  · unfold dereferenceSchema
    rw [derefCore_str]
  · simp [truthy] at hw
  · simp [truthy] at hw

theorem derefFuel_truthy : ∀ (n : Nat) (s : JVal) (r : List (String × JVal))
    (v : List String) (out : JVal × List String × Bool),
    derefFuel n s r v = some out → truthy out.1 = truthy s
  | 0, s, r, v, out, h => by simp [derefFuel] at h
  | n + 1, s, r, v, out, h => by
      cases s
      case undef => simp only [derefFuel, Option.some.injEq] at h; rw [← h]
      case null => simp only [derefFuel, Option.some.injEq] at h; rw [← h]
      case bool b => simp only [derefFuel, Option.some.injEq] at h; rw [← h]
      case num m => simp only [derefFuel, Option.some.injEq] at h; rw [← h]
      case str st => simp only [derefFuel, Option.some.injEq] at h; rw [← h]
      case arr xs =>
        simp only [derefFuel] at h
        rcases hA : derefFuelArr n xs r v with _ | ⟨ys, vis2, b⟩
        · simp [hA] at h
        · simp only [hA, Option.some.injEq] at h
          rw [← h]
          rfl
      case obj kvs =>
        rcases hko : asStr (lookupKey kvs "$ref") with _ | p
        · simp only [derefFuel, hko] at h
          rcases hO : derefFuelObj n kvs r v with _ | ⟨ys, vis2, b⟩
          · simp [hO] at h
          · simp only [hO, Option.some.injEq] at h
            rw [← h]
            rfl
        · simp only [derefFuel, hko] at h
          by_cases hc : v.contains p = true
          · rw [if_pos hc] at h
            simp only [Option.some.injEq] at h
            rw [← h]
            rfl
          · rw [if_neg hc] at h
            rcases hl : lookupRef r p with _ | w
            · simp only [hl, Option.some.injEq] at h
              rw [← h]
            · simp only [hl] at h
              by_cases ht : truthy w = true
              · rw [if_pos ht] at h
                rcases hT : derefFuel n w r (insertSet p v) with _ | ⟨y, vis2, b⟩
                · simp [hT] at h
                · simp only [hT, Option.some.injEq] at h
                  have h2 : truthy y = true := by
                    have h3 := derefFuel_truthy n w r (insertSet p v) _ hT
                    rw [ht] at h3
                    exact h3
                  rw [← h]
                  exact h2
              · rw [if_neg ht] at h
                simp only [Option.some.injEq] at h
                rw [← h]

theorem deref_truthy (s : JVal) (r : List (String × JVal)) (v : List String) :
    truthy (dereferenceSchema s r v) = truthy s := by
  obtain ⟨n, h⟩ := derefFuel_pure s r v
  exact derefFuel_truthy n s r v _ h

mutual
/-- When every reference in the input (and in the indexed schemas it can
pull in) is a string resolving to a truthy map entry, and the run detects
no cycle, the dereferenced output contains no `$ref` key at all. -/
theorem derefFuel_refFree : ∀ (n : Nat) (s : JVal) (r : List (String × JVal))
    (v : List String) (out : JVal × List String × Bool),
    derefFuel n s r v = some out →
    (∀ kv ∈ r, refsAreStrings kv.2 = true ∧ allRefsResolve r kv.2 = true) →
    refsAreStrings s = true → allRefsResolve r s = true →
    out.2.2 = false → refFree out.1 = true
  | 0, s, r, v, out, h, _, _, _, _ => by simp [derefFuel] at h
  | n + 1, s, r, v, out, h, hr, hrs, hres, hflag => by
      cases s
      case undef => simp only [derefFuel, Option.some.injEq] at h; rw [← h]; rfl
      case null => simp only [derefFuel, Option.some.injEq] at h; rw [← h]; rfl
      case bool b => simp only [derefFuel, Option.some.injEq] at h; rw [← h]; rfl
      case num m => simp only [derefFuel, Option.some.injEq] at h; rw [← h]; rfl
      case str st => simp only [derefFuel, Option.some.injEq] at h; rw [← h]; rfl
      case arr xs =>
        simp only [derefFuel] at h
        rcases hA : derefFuelArr n xs r v with _ | ⟨ys, vis2, b⟩
        · simp [hA] at h
        · simp only [hA, Option.some.injEq] at h
          unfold refsAreStrings at hrs
          unfold allRefsResolve at hres
          have hb : b = false := by rw [← h] at hflag; exact hflag
          subst hb
          have := derefFuelArr_refFree n xs r v _ hA hr hrs hres rfl
          rw [← h]
          exact this
      case obj kvs =>
        rcases hko : asStr (lookupKey kvs "$ref") with _ | p
        · simp only [derefFuel, hko] at h
          rcases hO : derefFuelObj n kvs r v with _ | ⟨ys, vis2, b⟩
          · simp [hO] at h
          · simp only [hO, Option.some.injEq] at h
            unfold refsAreStrings at hrs
            unfold allRefsResolve at hres
            simp only [Bool.and_eq_true] at hrs hres
            have hb : b = false := by rw [← h] at hflag; exact hflag
            subst hb
            obtain ⟨hkeys, hvals⟩ := derefFuelObj_refFree n kvs r v _ hO hr hrs.2 hres.2 rfl
            have hnone : lookupKey kvs "$ref" = none := by
              rcases hlk : lookupKey kvs "$ref" with _ | w
              · rfl
              · cases w
                case str st => rw [hlk] at hko; simp [asStr] at hko
                all_goals rw [hlk] at hrs; simp at hrs
            have hnm : "$ref" ∉ keysO ys := by
              rw [hkeys]
              exact not_mem_of_lookupKey_none hnone
            rw [← h]
            exact refFreeObj_of_keys hnm hvals
        · simp only [derefFuel, hko] at h
          unfold allRefsResolve at hres
          simp only [hko, Bool.and_eq_true] at hres
          by_cases hc : v.contains p = true
          · rw [if_pos hc] at h
            simp only [Option.some.injEq] at h
            rw [← h] at hflag
            cases hflag
          · rw [if_neg hc] at h
            rcases hl : lookupRef r p with _ | w
            · rw [hl] at hres
              simp at hres
            · simp only [hl] at h
              have ht : truthy w = true := by
                rw [hl] at hres
                exact hres.1
              rw [if_pos ht] at h
              rcases hT : derefFuel n w r (insertSet p v) with _ | ⟨y, vis2, b⟩
              · simp [hT] at h
              · simp only [hT, Option.some.injEq] at h
                have hb : b = false := by rw [← h] at hflag; exact hflag
                subst hb
                obtain ⟨k, hkm⟩ := lookupRef_mem hl
                obtain ⟨hw1, hw2⟩ := hr (k, w) hkm
                have := derefFuel_refFree n w r (insertSet p v) _ hT hr hw1 hw2 rfl
                rw [← h]
                exact this

/-- Array walk of `derefFuel_refFree`. -/
theorem derefFuelArr_refFree : ∀ (n : Nat) (xs : JArr) (r : List (String × JVal))
    (v : List String) (out : JArr × List String × Bool),
    derefFuelArr n xs r v = some out →
    (∀ kv ∈ r, refsAreStrings kv.2 = true ∧ allRefsResolve r kv.2 = true) →
    refsAreStringsArr xs = true → allRefsResolveArr r xs = true →
    out.2.2 = false → refFreeArr out.1 = true
  | 0, xs, r, v, out, h, _, _, _, _ => by simp [derefFuelArr] at h
  | n + 1, .nil, r, v, out, h, _, _, _, _ => by
      simp only [derefFuelArr, Option.some.injEq] at h
      rw [← h]
      rfl
  | n + 1, .cons x rest, r, v, out, h, hr, hrs, hres, hflag => by
      simp only [derefFuelArr] at h
      unfold refsAreStringsArr at hrs
      unfold allRefsResolveArr at hres
      simp only [Bool.and_eq_true] at hrs hres
      rcases hx : derefFuel n x r v with _ | ⟨y, vis2, b⟩
      · simp [hx] at h
      · simp only [hx] at h
        rcases hR : derefFuelArr n rest r vis2 with _ | ⟨ys, vis3, b2⟩
        · simp [hR] at h
        · simp only [hR, Option.some.injEq] at h
          have hb : (b || b2) = false := by rw [← h] at hflag; exact hflag
          simp only [Bool.or_eq_false_iff] at hb
          have hxs := derefFuel_sound n x r v _ hx
          simp only [Prod.mk.injEq] at hxs
          have hvis : vis2 = v := hxs.2.1
          rw [hvis] at hR
          have h1 := derefFuel_refFree n x r v _ hx hr hrs.1 hres.1 hb.1
          have h2 := derefFuelArr_refFree n rest r v _ hR hr hrs.2 hres.2 hb.2
          rw [← h]
          simp only [refFreeArr, Bool.and_eq_true]
          exact ⟨h1, h2⟩

/-- Object-entry walk of `derefFuel_refFree`: keys are preserved and all
values come back reference-free. -/
theorem derefFuelObj_refFree : ∀ (n : Nat) (kvs : JObj) (r : List (String × JVal))
    (v : List String) (out : JObj × List String × Bool),
    derefFuelObj n kvs r v = some out →
    (∀ kv ∈ r, refsAreStrings kv.2 = true ∧ allRefsResolve r kv.2 = true) →
    refsAreStringsObj kvs = true → allRefsResolveObj r kvs = true →
    out.2.2 = false → keysO out.1 = keysO kvs ∧ refFreeVals out.1 = true
  | 0, kvs, r, v, out, h, _, _, _, _ => by simp [derefFuelObj] at h
  | n + 1, .nil, r, v, out, h, _, _, _, _ => by
      simp only [derefFuelObj, Option.some.injEq] at h
      rw [← h]
      exact ⟨rfl, rfl⟩
  | n + 1, .cons k x rest, r, v, out, h, hr, hrs, hres, hflag => by
      simp only [derefFuelObj] at h
      unfold refsAreStringsObj at hrs
      unfold allRefsResolveObj at hres
      simp only [Bool.and_eq_true] at hrs hres
      rcases hx : derefFuel n x r v with _ | ⟨y, vis2, b⟩
      · simp [hx] at h
      · simp only [hx] at h
        rcases hR : derefFuelObj n rest r vis2 with _ | ⟨ys, vis3, b2⟩
        · simp [hR] at h
        · simp only [hR, Option.some.injEq] at h
          have hb : (b || b2) = false := by rw [← h] at hflag; exact hflag
          simp only [Bool.or_eq_false_iff] at hb
          have hxs := derefFuel_sound n x r v _ hx
          simp only [Prod.mk.injEq] at hxs
          have hvis : vis2 = v := hxs.2.1
          rw [hvis] at hR
          have h1 := derefFuel_refFree n x r v _ hx hr hrs.1 hres.1 hb.1
          obtain ⟨hk2, hv2⟩ := derefFuelObj_refFree n rest r v _ hR hr hrs.2 hres.2 hb.2
          rw [← h]
          constructor
          · simp only [keysO, hk2]
          · simp only [refFreeVals, Bool.and_eq_true]
            exact ⟨h1, hv2⟩
end

/-- The reference map a document yields (empty when building throws). -/
def refMapOf (D : JVal) : List (String × JVal) :=
  (collectRefs D).toOption.getD []

theorem refMapOf_eq {D : JVal} {r : List (String × JVal)}
    (h : collectRefs D = .ok r) : refMapOf D = r := by
  unfold refMapOf
  rw [h]
  rfl

theorem collectRefs_obj_ok (dkvs : JObj) : ∃ r, collectRefs (.obj dkvs) = .ok r := by
  unfold collectRefs
  rw [getProp_of_ne _ _ (fun h => JVal.noConfusion h) (fun h => JVal.noConfusion h)]
  by_cases ht : truthy (jsProp (.obj dkvs) "components") = false
  · exact ⟨[], by simp [ht]⟩
  · have ht2 : truthy (jsProp (.obj dkvs) "components") = true := by simpa using ht
    show ∃ r, (if truthy (jsProp (.obj dkvs) "components") = false then Except.ok []
      else
        match getProp (jsProp (.obj dkvs) "components") "schemas" with
        | .error e => .error e
        | .ok s =>
          if truthy s && typeofObject s then
            Except.ok ((jsEntries s).map (fun kv => ("#/components/schemas/" ++ kv.1, kv.2)))
          else .ok []) = Except.ok r
    rw [if_neg ht, getProp_of_truthy _ _ ht2]
    show ∃ r, (if truthy (jsProp (jsProp (.obj dkvs) "components") "schemas") &&
        typeofObject (jsProp (jsProp (.obj dkvs) "components") "schemas") then
          Except.ok ((jsEntries (jsProp (jsProp (.obj dkvs) "components") "schemas")).map
            (fun kv => ("#/components/schemas/" ++ kv.1, kv.2)))
        else Except.ok []) = Except.ok r
    by_cases hs : (truthy (jsProp (jsProp (.obj dkvs) "components") "schemas")
        && typeofObject (jsProp (jsProp (.obj dkvs) "components") "schemas")) = true
    · exact ⟨_, by rw [if_pos hs]⟩
    · exact ⟨[], by rw [if_neg hs]⟩

theorem lookupKey_setKey_self : ∀ (o : JObj) (k : String) (v : JVal),
    lookupKey (setKey o k v) k = some v
  | .nil, k, v => by simp [setKey, lookupKey]
  | .cons k0 v0 rest, k, v => by
      unfold setKey
      by_cases hk : k0 == k
      · rw [if_pos hk]
        simp [lookupKey, hk]
      · rw [if_neg hk]
        simp only [lookupKey, hk, if_false]
        exact lookupKey_setKey_self rest k v

theorem lookupKey_setKey_other : ∀ (o : JObj) (k k2 : String) (v : JVal), k ≠ k2 →
    lookupKey (setKey o k2 v) k = lookupKey o k
  | .nil, k, k2, v, hne => by
      simp [setKey, lookupKey, show (k2 == k) = false by simpa using fun e => hne e.symm]
  | .cons k0 v0 rest, k, k2, v, hne => by
      unfold setKey
      by_cases hk : k0 == k2
      · rw [if_pos hk]
        have hk0 : (k0 == k) = false := by
          have : k0 = k2 := by simpa using hk
          simpa [this] using fun e => hne e.symm
        simp [lookupKey, hk0]
      · rw [if_neg hk]
        simp only [lookupKey]
        by_cases hk0 : k0 == k
        · rw [if_pos hk0, if_pos hk0]
        · rw [if_neg hk0, if_neg hk0]
          exact lookupKey_setKey_other rest k k2 v hne

mutual
/-- The claim's acceptance predicate: no object node carries a `$ref` key
except inside a Circular Placeholder (`$ref: <string>, _circular: true`,
exactly). -/
def refOutsidePlaceholderFree : JVal → Bool
  | .undef => true
  | .null => true
  | .bool _ => true
  | .num _ => true
  | .str _ => true
  | .arr xs => refOutsidePlaceholderFreeArr xs
  | .obj kvs =>
      (match kvs with
       | .cons "$ref" (.str _) (.cons "_circular" (.bool true) .nil) => true
       | _ => false)
      || ((match lookupKey kvs "$ref" with
            | none => true
            | some _ => false)
          && refOutsidePlaceholderFreeObj kvs)

/-- All elements. -/
def refOutsidePlaceholderFreeArr : JArr → Bool
  | .nil => true
  | .cons x xs => refOutsidePlaceholderFree x && refOutsidePlaceholderFreeArr xs

/-- All entry values. -/
def refOutsidePlaceholderFreeObj : JObj → Bool
  | .nil => true
  | .cons _ v t => refOutsidePlaceholderFree v && refOutsidePlaceholderFreeObj t
end

/-- An acyclic document whose `paths` holds a dangling reference. -/
def danglingSpec : JVal :=
  .obj (.cons "paths" (.obj (.cons "/x"
    (.obj (.cons "$ref" (.str "#/components/schemas/Missing") .nil)) .nil)) .nil)

/-- Its dereferenced form: the dangling `$ref` node survives verbatim. -/
def danglingOut : JVal :=
  .obj (.cons "paths" (.obj (.cons "/x"
    (.obj (.cons "$ref" (.str "#/components/schemas/Missing") .nil)) .nil))
    (.cons "components" .undef .nil))

/-- C1 counterexample: an acyclic document (no cycle diagnostic fires on
either subtree) whose dereferenced output still contains a `$ref` key
outside any Circular Placeholder — the dangling reference
`#/components/schemas/Missing` is preserved as is. -/
theorem dereferenceSpec_dangling_leaks_ref :
    derefHits (jsProp danglingSpec "paths") (refMapOf danglingSpec) [] = false ∧
    derefHits (jsProp danglingSpec "components") (refMapOf danglingSpec) [] = false ∧
    dereferenceSpec danglingSpec = .ok danglingOut ∧
    refOutsidePlaceholderFree (jsProp danglingOut "paths") = false :=
  ⟨derefFuel_eval_hits 16 _ _ _ false rfl,
   derefFuel_eval_hits 16 _ _ _ false rfl,
   dereferenceSpecFuel_sound 16 danglingSpec (.ok danglingOut) rfl,
   rfl⟩

/-- C1 (amended): for every acyclic specification document — an object
whose dereferencing triggers no circular-reference diagnostic — in which
every `$ref` value occurring in `paths`, in `components` and in the
indexed schemas is a string resolving to a truthy index entry, the
dereferenced document's `paths` and `components` subtrees contain zero
occurrences of the key `$ref` (in particular none outside Circular
Placeholders, which cannot arise on acyclic input).  The claim as stated
fails on dangling references, see the counterexample. -/
theorem dereferenceSpec_no_leaked_ref (dkvs : JObj)
    (hidx : ∀ kv ∈ refMapOf (.obj dkvs), refsAreStrings kv.2 = true ∧
      allRefsResolve (refMapOf (.obj dkvs)) kv.2 = true)
    (hp1 : refsAreStrings (jsProp (.obj dkvs) "paths") = true)
    (hp2 : allRefsResolve (refMapOf (.obj dkvs)) (jsProp (.obj dkvs) "paths") = true)
    (hc1 : refsAreStrings (jsProp (.obj dkvs) "components") = true)
    (hc2 : allRefsResolve (refMapOf (.obj dkvs)) (jsProp (.obj dkvs) "components") = true)
    (ha1 : derefHits (jsProp (.obj dkvs) "paths") (refMapOf (.obj dkvs)) [] = false)
    (ha2 : derefHits (jsProp (.obj dkvs) "components") (refMapOf (.obj dkvs)) [] = false) :
    ∃ O, dereferenceSpec (.obj dkvs) = .ok O ∧
      refFree (jsProp O "paths") = true ∧ refFree (jsProp O "components") = true := by
  obtain ⟨r, hcr⟩ := collectRefs_obj_ok dkvs
  have hre : refMapOf (.obj dkvs) = r := refMapOf_eq hcr
  rw [hre] at hidx hp2 hc2 ha1 ha2
  refine ⟨.obj (setKey (setKey dkvs "paths"
      (dereferenceSchema (jsProp (.obj dkvs) "paths") r []))
      "components" (if truthy (jsProp (.obj dkvs) "components") = true then
        dereferenceSchema (jsProp (.obj dkvs) "components") r [] else .undef)),
    ?_, ?_, ?_⟩
  · unfold dereferenceSpec
    rw [hcr, getProp_of_ne _ _ (fun h => JVal.noConfusion h) (fun h => JVal.noConfusion h)]
    rfl
  · have hjs : jsProp (JVal.obj (setKey (setKey dkvs "paths"
        (dereferenceSchema (jsProp (.obj dkvs) "paths") r []))
        "components" (if truthy (jsProp (.obj dkvs) "components") = true then
          dereferenceSchema (jsProp (.obj dkvs) "components") r [] else .undef))) "paths" =
        dereferenceSchema (jsProp (.obj dkvs) "paths") r [] := by
      simp only [jsProp]
      rw [lookupKey_setKey_other _ _ _ _ (by decide), lookupKey_setKey_self]
      rfl
    rw [hjs]
    obtain ⟨n, hfc⟩ := derefFuel_pure (jsProp (.obj dkvs) "paths") r []
    exact derefFuel_refFree n _ r [] _ hfc hidx hp1 hp2 ha1
  · have hjs : jsProp (JVal.obj (setKey (setKey dkvs "paths"
        (dereferenceSchema (jsProp (.obj dkvs) "paths") r []))
        "components" (if truthy (jsProp (.obj dkvs) "components") = true then
          dereferenceSchema (jsProp (.obj dkvs) "components") r [] else .undef))) "components" =
        (if truthy (jsProp (.obj dkvs) "components") = true then
          dereferenceSchema (jsProp (.obj dkvs) "components") r [] else .undef) := by
      simp only [jsProp]
      rw [lookupKey_setKey_self]
      rfl
    rw [hjs]
    by_cases ht : truthy (jsProp (.obj dkvs) "components") = true
    · rw [if_pos ht]
      obtain ⟨n, hfc⟩ := derefFuel_pure (jsProp (.obj dkvs) "components") r []
      exact derefFuel_refFree n _ r [] _ hfc hidx hc1 hc2 ha2
    · rw [if_neg ht]
      rfl

/-- Witness for C1: the nested-path document of the test suite — a
`paths` entry referring to `UserEditDTO` — satisfies the hypotheses and
dereferences to a `$ref`-free document. -/
theorem dereferenceSpec_no_leaked_ref_witness :
    (∀ kv ∈ refMapOf (.obj (.cons "paths" (.obj (.cons "/user"
        (.obj (.cons "schema" (.obj (.cons "$ref"
          (.str "#/components/schemas/UserEditDTO") .nil)) .nil)) .nil))
      (.cons "components" (.obj (.cons "schemas" (.obj (.cons "UserEditDTO"
        (.obj (.cons "type" (.str "object") (.cons "properties"
          (.obj (.cons "name" (.obj (.cons "type" (.str "string") .nil)) .nil)) .nil)))
        .nil)) .nil)) .nil))),
      refsAreStrings kv.2 = true ∧
      allRefsResolve (refMapOf (.obj (.cons "paths" (.obj (.cons "/user"
        (.obj (.cons "schema" (.obj (.cons "$ref"
          (.str "#/components/schemas/UserEditDTO") .nil)) .nil)) .nil))
      (.cons "components" (.obj (.cons "schemas" (.obj (.cons "UserEditDTO"
        (.obj (.cons "type" (.str "object") (.cons "properties"
          (.obj (.cons "name" (.obj (.cons "type" (.str "string") .nil)) .nil)) .nil)))
        .nil)) .nil)) .nil)))) kv.2 = true) ∧
    (∃ O, dereferenceSpec (.obj (.cons "paths" (.obj (.cons "/user"
        (.obj (.cons "schema" (.obj (.cons "$ref"
          (.str "#/components/schemas/UserEditDTO") .nil)) .nil)) .nil))
      (.cons "components" (.obj (.cons "schemas" (.obj (.cons "UserEditDTO"
        (.obj (.cons "type" (.str "object") (.cons "properties"
          (.obj (.cons "name" (.obj (.cons "type" (.str "string") .nil)) .nil)) .nil)))
        .nil)) .nil)) .nil))) = .ok O ∧
      refFree (jsProp O "paths") = true ∧ refFree (jsProp O "components") = true) := by
  constructor
  · intro kv hkv
    fin_cases hkv <;> exact ⟨rfl, rfl⟩
  · exact dereferenceSpec_no_leaked_ref _
      (by intro kv hkv; fin_cases hkv <;> exact ⟨rfl, rfl⟩)
      rfl rfl rfl rfl
      (derefFuel_eval_hits 32 _ _ _ false rfl)
      (derefFuel_eval_hits 32 _ _ _ false rfl)

mutual
/-- Second-pass identity: a value the dereferencer produced from
string-`$ref` input without a cycle diagnostic dereferences to itself
against any reference map on which unresolvable paths stay unresolvable
and falsy targets stay falsy. -/
theorem derefFuel_stable : ∀ (n : Nat) (s : JVal) (r r2 : List (String × JVal))
    (v : List String) (out : JVal × List String × Bool),
    derefFuel n s r v = some out →
    (∀ p, lookupRef r p = none → lookupRef r2 p = none) →
    (∀ p w, lookupRef r p = some w → truthy w = false →
      ∃ w2, lookupRef r2 p = some w2 ∧ truthy w2 = false) →
    (∀ kv ∈ r, refsAreStrings kv.2 = true) →
    refsAreStrings s = true →
    out.2.2 = false → derefCore out.1 r2 [] = (out.1, false)
  | 0, s, r, r2, v, out, h, _, _, _, _, _ => by simp [derefFuel] at h
  | n + 1, s, r, r2, v, out, h, hd, hf, hr, hrs, hflag => by
      cases s
      case undef =>
        simp only [derefFuel, Option.some.injEq] at h
        rw [← h]
        exact derefCore_undef r2 []
      case null =>
        simp only [derefFuel, Option.some.injEq] at h
        rw [← h]
        exact derefCore_null r2 []
      case bool b =>
        simp only [derefFuel, Option.some.injEq] at h
        rw [← h]
        exact derefCore_bool b r2 []
      case num m =>
        simp only [derefFuel, Option.some.injEq] at h
        rw [← h]
        exact derefCore_num m r2 []
      case str st =>
        simp only [derefFuel, Option.some.injEq] at h
        rw [← h]
        exact derefCore_str st r2 []
      case arr xs =>
        simp only [derefFuel] at h
        rcases hA : derefFuelArr n xs r v with _ | ⟨ys, vis2, b⟩
        · simp [hA] at h
        · simp only [hA, Option.some.injEq] at h
          unfold refsAreStrings at hrs
          have hb : b = false := by rw [← h] at hflag; exact hflag
          subst hb
          have h2 := derefFuelArr_stable n xs r r2 v _ hA hd hf hr hrs rfl
          rw [← h, derefCore_arr, h2]
      case obj kvs =>
        rcases hko : asStr (lookupKey kvs "$ref") with _ | p
        · simp only [derefFuel, hko] at h
          rcases hO : derefFuelObj n kvs r v with _ | ⟨ys, vis2, b⟩
          · simp [hO] at h
          · simp only [hO, Option.some.injEq] at h
            unfold refsAreStrings at hrs
            simp only [Bool.and_eq_true] at hrs
            have hb : b = false := by rw [← h] at hflag; exact hflag
            subst hb
            obtain ⟨hkeys, hstab⟩ := derefFuelObj_stable n kvs r r2 v _ hO hd hf hr hrs.2 rfl
            have hnone : lookupKey kvs "$ref" = none := by
              rcases hlk : lookupKey kvs "$ref" with _ | w
              · rfl
              · cases w
                case str st => rw [hlk] at hko; simp [asStr] at hko
                all_goals rw [hlk] at hrs; simp at hrs
            have hys : lookupKey ys "$ref" = none :=
              lookupKey_none_of_not_mem (by rw [hkeys]; exact not_mem_of_lookupKey_none hnone)
            rw [← h, derefCore_obj_plain r2 [] (by rw [hys]; rfl), hstab]
        · simp only [derefFuel, hko] at h
          by_cases hc : v.contains p = true
          · rw [if_pos hc] at h
            simp only [Option.some.injEq] at h
            rw [← h] at hflag
            cases hflag
          · rw [if_neg hc] at h
            rcases hl : lookupRef r p with _ | w
            · simp only [hl, Option.some.injEq] at h
              rw [← h]
              exact derefCore_obj_dangling hko
                (show ([] : List String).contains p = false from rfl) (hd p hl)
            · simp only [hl] at h
              by_cases ht : truthy w = true
              · rw [if_pos ht] at h
                rcases hT : derefFuel n w r (insertSet p v) with _ | ⟨y, vis2, b⟩
                · simp [hT] at h
                · simp only [hT, Option.some.injEq] at h
                  have hb : b = false := by rw [← h] at hflag; exact hflag
                  subst hb
                  obtain ⟨k, hkm⟩ := lookupRef_mem hl
                  have hw1 := hr (k, w) hkm
                  have := derefFuel_stable n w r r2 (insertSet p v) _ hT hd hf hr hw1 rfl
                  rw [← h]
                  exact this
              · rw [if_neg ht] at h
                simp only [Option.some.injEq] at h
                have ht2 : truthy w = false := by simpa using ht
                obtain ⟨w2, hw2, hw2f⟩ := hf p w hl ht2
                rw [← h]
                exact derefCore_obj_falsy hko
                  (show ([] : List String).contains p = false from rfl) hw2 hw2f

/-- Array walk of `derefFuel_stable`. -/
theorem derefFuelArr_stable : ∀ (n : Nat) (xs : JArr) (r r2 : List (String × JVal))
    (v : List String) (out : JArr × List String × Bool),
    derefFuelArr n xs r v = some out →
    (∀ p, lookupRef r p = none → lookupRef r2 p = none) →
    (∀ p w, lookupRef r p = some w → truthy w = false →
      ∃ w2, lookupRef r2 p = some w2 ∧ truthy w2 = false) →
    (∀ kv ∈ r, refsAreStrings kv.2 = true) →
    refsAreStringsArr xs = true →
    out.2.2 = false → derefCoreArr out.1 r2 [] = (out.1, false)
  | 0, xs, r, r2, v, out, h, _, _, _, _, _ => by simp [derefFuelArr] at h
  | n + 1, .nil, r, r2, v, out, h, _, _, _, _, _ => by
      simp only [derefFuelArr, Option.some.injEq] at h
      rw [← h]
      exact derefCoreArr_nil r2 []
  | n + 1, .cons x rest, r, r2, v, out, h, hd, hf, hr, hrs, hflag => by
      simp only [derefFuelArr] at h
      unfold refsAreStringsArr at hrs
      simp only [Bool.and_eq_true] at hrs
      rcases hx : derefFuel n x r v with _ | ⟨y, vis2, b⟩
      · simp [hx] at h
      · simp only [hx] at h
        rcases hR : derefFuelArr n rest r vis2 with _ | ⟨ys, vis3, b2⟩
        · simp [hR] at h
        · simp only [hR, Option.some.injEq] at h
          have hb : (b || b2) = false := by rw [← h] at hflag; exact hflag
          simp only [Bool.or_eq_false_iff] at hb
          have h1 := derefFuel_stable n x r r2 v _ hx hd hf hr hrs.1 hb.1
          have h2 := derefFuelArr_stable n rest r r2 vis2 _ hR hd hf hr hrs.2 hb.2
          rw [← h, derefCoreArr_cons, h1, h2]
          rfl

/-- Object-entry walk of `derefFuel_stable`: keys are preserved and the
rebuilt object dereferences to itself. -/
theorem derefFuelObj_stable : ∀ (n : Nat) (kvs : JObj) (r r2 : List (String × JVal))
    (v : List String) (out : JObj × List String × Bool),
    derefFuelObj n kvs r v = some out →
    (∀ p, lookupRef r p = none → lookupRef r2 p = none) →
    (∀ p w, lookupRef r p = some w → truthy w = false →
      ∃ w2, lookupRef r2 p = some w2 ∧ truthy w2 = false) →
    (∀ kv ∈ r, refsAreStrings kv.2 = true) →
    refsAreStringsObj kvs = true →
    out.2.2 = false → keysO out.1 = keysO kvs ∧ derefCoreObj out.1 r2 [] = (out.1, false)
  | 0, kvs, r, r2, v, out, h, _, _, _, _, _ => by simp [derefFuelObj] at h
  | n + 1, .nil, r, r2, v, out, h, _, _, _, _, _ => by
      simp only [derefFuelObj, Option.some.injEq] at h
      rw [← h]
      exact ⟨rfl, derefCoreObj_nil r2 []⟩
  | n + 1, .cons k x rest, r, r2, v, out, h, hd, hf, hr, hrs, hflag => by
      simp only [derefFuelObj] at h
      unfold refsAreStringsObj at hrs
      simp only [Bool.and_eq_true] at hrs
      rcases hx : derefFuel n x r v with _ | ⟨y, vis2, b⟩
      · simp [hx] at h
      · simp only [hx] at h
        rcases hR : derefFuelObj n rest r vis2 with _ | ⟨ys, vis3, b2⟩
        · simp [hR] at h
        · simp only [hR, Option.some.injEq] at h
          have hb : (b || b2) = false := by rw [← h] at hflag; exact hflag
          simp only [Bool.or_eq_false_iff] at hb
          have h1 := derefFuel_stable n x r r2 v _ hx hd hf hr hrs.1 hb.1
          obtain ⟨hk2, h2⟩ := derefFuelObj_stable n rest r r2 vis2 _ hR hd hf hr hrs.2 hb.2
          rw [← h]
          constructor
          · simp only [keysO, hk2]
          · rw [derefCoreObj_cons, h1, h2]
            rfl
end

theorem setKey_self : ∀ {o : JObj} {k : String} {w : JVal},
    lookupKey o k = some w → setKey o k w = o
  | .nil, k, w, h => by simp [lookupKey] at h
  | .cons k0 v0 rest, k, w, h => by
      unfold setKey
      by_cases hk : k0 == k
      · rw [if_pos hk]
        simp only [lookupKey, if_pos hk, Option.some.injEq] at h
        rw [h]
      · rw [if_neg hk]
        simp only [lookupKey, if_neg hk] at h
        rw [setKey_self h]

theorem lookupKey_derefCoreObj : ∀ (kvs : JObj) (r : List (String × JVal))
    (v : List String) (k : String),
    lookupKey (derefCoreObj kvs r v).1 k =
      (lookupKey kvs k).map (fun w => (derefCore w r v).1)
  | .nil, r, v, k => by rw [derefCoreObj_nil]; rfl
  | .cons k0 x rest, r, v, k => by
      rw [derefCoreObj_cons]
      simp only [lookupKey]
      by_cases hk : k0 == k
      · rw [if_pos hk, if_pos hk]
        rfl
      · rw [if_neg hk, if_neg hk]
        exact lookupKey_derefCoreObj rest r v k

theorem jsEntriesObj_derefCoreObj : ∀ (kvs : JObj) (r : List (String × JVal))
    (v : List String),
    jsEntriesObj (derefCoreObj kvs r v).1 =
      (jsEntriesObj kvs).map (fun kv => (kv.1, (derefCore kv.2 r v).1))
  | .nil, r, v => by rw [derefCoreObj_nil]; rfl
  | .cons k0 x rest, r, v => by
      rw [derefCoreObj_cons]
      simp only [jsEntriesObj, List.map_cons]
      rw [jsEntriesObj_derefCoreObj rest r v]

/-- `collectRefs` on an object document, fully computed. -/
theorem collectRefs_obj (dkvs : JObj) :
    collectRefs (.obj dkvs) =
      (if truthy (jsProp (.obj dkvs) "components") = false then .ok []
       else if truthy (jsProp (jsProp (.obj dkvs) "components") "schemas") &&
           typeofObject (jsProp (jsProp (.obj dkvs) "components") "schemas") then
         .ok ((jsEntries (jsProp (jsProp (.obj dkvs) "components") "schemas")).map
           (fun kv => ("#/components/schemas/" ++ kv.1, kv.2)))
       else .ok []) := by
  unfold collectRefs
  rw [getProp_of_ne _ _ (fun h => JVal.noConfusion h) (fun h => JVal.noConfusion h)]
  show (if truthy (jsProp (.obj dkvs) "components") = false then Except.ok []
    else match getProp (jsProp (.obj dkvs) "components") "schemas" with
      | .error e => .error e
      | .ok s => if truthy s && typeofObject s then
          Except.ok ((jsEntries s).map (fun kv => ("#/components/schemas/" ++ kv.1, kv.2)))
        else Except.ok []) = _
  by_cases ht : truthy (jsProp (.obj dkvs) "components") = false
  · rw [if_pos ht, if_pos ht]
  · rw [if_neg ht, if_neg ht, getProp_of_truthy _ _ (by simpa using ht)]

/-- An object holding the first pass's `paths` and `components` results is
a fixed point of `dereferenceSpec`, provided the first pass saw no cycle,
every `$ref` value in play is a string, and `components`/`schemas` follow
the document shape (falsy, or reference-node-free objects). -/
theorem dereferenceSpec_fixed (okvs : JObj) (r : List (String × JVal)) (pa co P C : JVal)
    (hlkpa : lookupKey okvs "paths" = some P)
    (hlkco : lookupKey okvs "components" = some C)
    (hP : dereferenceSchema pa r [] = P)
    (hC : (if truthy co = true then dereferenceSchema co r [] else .undef) = C)
    (hidx : ∀ kv ∈ r, refsAreStrings kv.2 = true)
    (h1 : refsAreStrings pa = true)
    (h2 : refsAreStrings co = true)
    (ha1 : derefHits pa r [] = false)
    (ha2 : derefHits co r [] = false)
    (hcos : truthy co = false ∨ ∃ cokvs, co = .obj cokvs ∧ lookupKey cokvs "$ref" = none)
    (hscs : truthy (jsProp co "schemas") = false ∨
      ∃ skvs, jsProp co "schemas" = .obj skvs ∧ lookupKey skvs "$ref" = none)
    (hrchar : (if truthy co = false then Except.ok [] else
        if truthy (jsProp co "schemas") && typeofObject (jsProp co "schemas") then
          Except.ok ((jsEntries (jsProp co "schemas")).map
            (fun kv => ("#/components/schemas/" ++ kv.1, kv.2)))
        else Except.ok []) = (Except.ok r : Except Unit (List (String × JVal)))) :
    dereferenceSpec (.obj okvs) = .ok (.obj okvs) := by
  have hOpa : jsProp (.obj okvs) "paths" = P := by
    simp only [jsProp]
    rw [hlkpa]
    rfl
  have hOco : jsProp (.obj okvs) "components" = C := by
    simp only [jsProp]
    rw [hlkco]
    rfl
  have hkey : ∃ r2, collectRefs (.obj okvs) = .ok r2 ∧
      (∀ p, lookupRef r p = none → lookupRef r2 p = none) ∧
      (∀ p w, lookupRef r p = some w → truthy w = false →
        ∃ w2, lookupRef r2 p = some w2 ∧ truthy w2 = false) := by
    by_cases htc : truthy co = false
    · have hCu : C = .undef := by rw [← hC, if_neg (by simp [htc])]
      have hr0 : r = [] := by
        rw [if_pos htc] at hrchar
        have : ([] : List (String × JVal)) = r := by simpa using hrchar
        exact this.symm
      refine ⟨[], ?_, ?_, ?_⟩
      · rw [collectRefs_obj, hOco, hCu]
        rfl
      · intro p h
        rfl
      · intro p w h hwf
        rw [hr0] at h
        simp [lookupRef] at h
    · have htc2 : truthy co = true := by simpa using htc
      rcases hcos with hbad | ⟨cokvs, hcoeq, hcoref⟩
      · rw [hbad] at htc2
        cases htc2
      have hCd : C = dereferenceSchema co r [] := by rw [← hC, if_pos htc2]
      have hasr : asStr (lookupKey cokvs "$ref") = none := by rw [hcoref]; rfl
      have hCW : C = .obj (derefCoreObj cokvs r []).1 := by
        rw [hCd, hcoeq]
        unfold dereferenceSchema
        rw [derefCore_obj_plain r [] hasr]
      have hschC : jsProp C "schemas" =
          ((lookupKey cokvs "schemas").map (fun w => (derefCore w r []).1)).getD .undef := by
        rw [hCW]
        simp only [jsProp]
        rw [lookupKey_derefCoreObj]
      have hsco : jsProp co "schemas" = (lookupKey cokvs "schemas").getD .undef := by
        rw [hcoeq]
        rfl
      have htC : truthy C = true := by rw [hCW]; rfl
      rw [if_neg htc] at hrchar
      rcases hls : lookupKey cokvs "schemas" with _ | s0
      · have hsu : jsProp co "schemas" = .undef := by rw [hsco, hls]; rfl
        have hr0 : r = [] := by
          rw [hsu] at hrchar
          have : ([] : List (String × JVal)) = r := by
            simpa [truthy, typeofObject] using hrchar
          exact this.symm
        refine ⟨[], ?_, ?_, ?_⟩
        · rw [collectRefs_obj, hOco]
          rw [if_neg (by simp [htC])]
          have hCsu : jsProp C "schemas" = .undef := by rw [hschC, hls]; rfl
          rw [hCsu]
          rfl
        · intro p h
          rfl
        · intro p w h hwf
          rw [hr0] at h
          simp [lookupRef] at h
      · have hs0 : jsProp co "schemas" = s0 := by rw [hsco, hls]; rfl
        rcases hscs with hsf | ⟨skvs, hseq, hsref⟩
        · have hsf0 : truthy s0 = false := by rw [← hs0]; exact hsf
          have hr0 : r = [] := by
            rw [hs0, hsf0] at hrchar
            have : ([] : List (String × JVal)) = r := by simpa using hrchar
            exact this.symm
          refine ⟨[], ?_, ?_, ?_⟩
          · rw [collectRefs_obj, hOco]
            rw [if_neg (by simp [htC])]
            have hCs : jsProp C "schemas" = s0 := by
              rw [hschC, hls]
              exact deref_falsy r [] hsf0
            rw [hCs, hsf0, Bool.false_and]
            rfl
          · intro p h
            rfl
          · intro p w h hwf
            rw [hr0] at h
            simp [lookupRef] at h
        · have hs0obj : s0 = .obj skvs := hs0.symm.trans hseq
          have hr_eq : r = (jsEntriesObj skvs).map
              (fun kv => ("#/components/schemas/" ++ kv.1, kv.2)) := by
            rw [hs0, hs0obj] at hrchar
            rw [if_pos (show (truthy (JVal.obj skvs) && typeofObject (JVal.obj skvs)) = true
              from rfl)] at hrchar
            have h' : (jsEntries (JVal.obj skvs)).map
                (fun kv => ("#/components/schemas/" ++ kv.1, kv.2)) = r := by
              simpa using hrchar
            rw [← h']
            rfl
          refine ⟨r.map (fun kv => (kv.1, dereferenceSchema kv.2 r [])), ?_, ?_, ?_⟩
          · rw [collectRefs_obj, hOco]
            rw [if_neg (by simp [htC])]
            have hCs : jsProp C "schemas" = .obj (derefCoreObj skvs r []).1 := by
              rw [hschC, hls]
              show (derefCore s0 r []).1 = _
              rw [hs0obj, derefCore_obj_plain r [] (by rw [hsref]; rfl)]
            rw [hCs]
            rw [if_pos (show (truthy (JVal.obj (derefCoreObj skvs r []).1) &&
              typeofObject (JVal.obj (derefCoreObj skvs r []).1)) = true from rfl)]
            congr 1
            simp only [jsEntries]
            rw [jsEntriesObj_derefCoreObj]
            rw [List.map_map, hr_eq, List.map_map]
            rfl
          · intro p hnone
            rw [lookupRef_mapDeref r r p, hnone]
            rfl
          · intro p w hw hwf
            refine ⟨w, ?_, hwf⟩
            rw [lookupRef_mapDeref r r p, hw]
            simp only [Option.map_some']
            rw [deref_falsy r [] hwf]
  obtain ⟨r2, hcr2, hd, hf⟩ := hkey
  have hPstab : dereferenceSchema P r2 [] = P := by
    obtain ⟨n, hfc⟩ := derefFuel_pure pa r []
    have hst := derefFuel_stable n pa r r2 [] _ hfc hd hf hidx h1 ha1
    rw [hP] at hst
    exact congrArg Prod.fst hst
  have hCstab : (if truthy C = true then dereferenceSchema C r2 [] else .undef) = C := by
    by_cases htc : truthy co = true
    · have hCd : C = dereferenceSchema co r [] := by rw [← hC, if_pos htc]
      have htC : truthy C = true := by rw [hCd, deref_truthy]; exact htc
      rw [if_pos htC]
      obtain ⟨n, hfc⟩ := derefFuel_pure co r []
      have hst := derefFuel_stable n co r r2 [] _ hfc hd hf hidx h2 ha2
      rw [← hCd] at hst
      exact congrArg Prod.fst hst
    · have hCu : C = .undef := by rw [← hC, if_neg htc]
      rw [hCu]
      rfl
  unfold dereferenceSpec
  rw [hcr2, getProp_of_ne _ _ (fun h => JVal.noConfusion h) (fun h => JVal.noConfusion h),
    getProp_of_ne _ _ (fun h => JVal.noConfusion h) (fun h => JVal.noConfusion h)]
  show (Except.ok (JVal.obj (setKey (setKey (spreadOf (.obj okvs)) "paths"
      (dereferenceSchema (jsProp (.obj okvs) "paths") r2 []))
      "components" (if truthy (jsProp (.obj okvs) "components") = true then
        dereferenceSchema (jsProp (.obj okvs) "components") r2 [] else .undef))) :
      Except Unit JVal)
    = Except.ok (JVal.obj okvs)
  rw [hOpa, hOco, show spreadOf (.obj okvs) = okvs from rfl, hPstab, hCstab,
    setKey_self hlkpa, setKey_self hlkco]

/-- C4: on an acyclic specification document — an object whose
dereferencing raises no circular-reference diagnostic, whose `$ref`
values (in `paths`, in `components` and in the indexed schemas) are
strings, and whose `components` and `components.schemas` are falsy or
reference-node-free objects as §3 prescribes — full dereferencing is
idempotent: running `dereferenceSpec` on its own output returns that
output unchanged. -/
theorem dereferenceSpec_idempotent_acyclic (dkvs : JObj)
    (hidx : ∀ kv ∈ refMapOf (.obj dkvs), refsAreStrings kv.2 = true)
    (h1 : refsAreStrings (jsProp (.obj dkvs) "paths") = true)
    (h2 : refsAreStrings (jsProp (.obj dkvs) "components") = true)
    (ha1 : derefHits (jsProp (.obj dkvs) "paths") (refMapOf (.obj dkvs)) [] = false)
    (ha2 : derefHits (jsProp (.obj dkvs) "components") (refMapOf (.obj dkvs)) [] = false)
    (hco : truthy (jsProp (.obj dkvs) "components") = false ∨
      ∃ cokvs, jsProp (.obj dkvs) "components" = .obj cokvs ∧ lookupKey cokvs "$ref" = none)
    (hsc : truthy (jsProp (jsProp (.obj dkvs) "components") "schemas") = false ∨
      ∃ skvs, jsProp (jsProp (.obj dkvs) "components") "schemas" = .obj skvs ∧
        lookupKey skvs "$ref" = none) :
    ∃ O, dereferenceSpec (.obj dkvs) = .ok O ∧ dereferenceSpec O = .ok O := by
  obtain ⟨r, hcr⟩ := collectRefs_obj_ok dkvs
  have hre : refMapOf (.obj dkvs) = r := refMapOf_eq hcr
  rw [hre] at hidx ha1 ha2
  have hrun1 : dereferenceSpec (.obj dkvs) = .ok (.obj (setKey (setKey dkvs "paths"
      (dereferenceSchema (jsProp (.obj dkvs) "paths") r []))
      "components" (if truthy (jsProp (.obj dkvs) "components") = true then
        dereferenceSchema (jsProp (.obj dkvs) "components") r [] else .undef))) := by
    unfold dereferenceSpec
    rw [hcr, getProp_of_ne _ _ (fun h => JVal.noConfusion h) (fun h => JVal.noConfusion h)]
    rfl
  refine ⟨_, hrun1, ?_⟩
  rw [collectRefs_obj] at hcr
  exact dereferenceSpec_fixed _ r (jsProp (.obj dkvs) "paths")
    (jsProp (.obj dkvs) "components")
    (dereferenceSchema (jsProp (.obj dkvs) "paths") r [])
    (if truthy (jsProp (.obj dkvs) "components") = true then
      dereferenceSchema (jsProp (.obj dkvs) "components") r [] else .undef)
    (by rw [lookupKey_setKey_other _ _ _ _ (by decide), lookupKey_setKey_self])
    (lookupKey_setKey_self _ _ _)
    rfl rfl hidx h1 h2 ha1 ha2 hco hsc hcr

/-- A small acyclic, fully resolvable document used to exercise C4. -/
def idemDoc : JObj :=
  .cons "paths" (.obj (.cons "/user"
      (.obj (.cons "schema" (.obj (.cons "$ref"
        (.str "#/components/schemas/UserEditDTO") .nil)) .nil)) .nil))
    (.cons "components" (.obj (.cons "schemas" (.obj (.cons "UserEditDTO"
      (.obj (.cons "type" (.str "object") .nil)) .nil)) .nil)) .nil)

/-- Witness for C4: the concrete document satisfies every hypothesis, and
dereferencing is idempotent on it. -/
theorem dereferenceSpec_idempotent_acyclic_witness :
    ∃ O, dereferenceSpec (.obj idemDoc) = .ok O ∧ dereferenceSpec O = .ok O :=
  dereferenceSpec_idempotent_acyclic idemDoc
    (by intro kv hkv; fin_cases hkv; exact rfl)
    rfl rfl
    (derefFuel_eval_hits 32 _ _ _ false rfl)
    (derefFuel_eval_hits 32 _ _ _ false rfl)
    (Or.inr ⟨_, rfl, rfl⟩)
    (Or.inr ⟨_, rfl, rfl⟩)
